import Mathlib

/-!
Verification development for the Hoast hosts-file engine
(src/Hoast-Electron/src/services/hostsFileParser.ts,
src/Hoast-Electron/src/services/hostsFileWriter.ts,
src/Hoast-Electron/src/services/hostsFileWatcher.ts).

Text is modelled as `List Char`.  JavaScript string helpers used by the
source (String.prototype.trim, String.prototype.split with the regexes
/\r?\n/ and /\s+/ and the separator ".", Array.prototype.join,
Array.prototype.findIndex, Array.prototype.find) are embedded as the
executable functions below.  The ASCII whitespace characters recognised
by the JS \s class and by trim are space, tab, newline, carriage
return, vertical tab and form feed; the source never feeds non-ASCII
whitespace through the relevant paths.
-/

namespace Hoast

abbrev Str := List Char

/-- Whitespace test mirroring the JS \s character class (ASCII part) and
the character set removed by String.prototype.trim. -/
def isSpace (c : Char) : Bool :=
  c = ' ' || c = '\t' || c = '\n' || c = '\r' || c = Char.ofNat 11 || c = Char.ofNat 12

def notSpace (c : Char) : Bool := !isSpace c

/-- Embedding of String.prototype.trim. -/
def trim (s : Str) : Str :=
  ((s.dropWhile isSpace).reverse.dropWhile isSpace).reverse

/-- Helper of `splitLinesAux` for the line terminator case: the regex
/\r?\n/ consumes a carriage return immediately preceding the newline,
which in accumulator form (the accumulator holds the current line
reversed) means dropping a leading carriage return. -/
def finishLine (acc : Str) : Str :=
  match acc with
  | '\r' :: acc2 => acc2.reverse
  | _ => acc.reverse

/-- Accumulator worker for `splitLines`. -/
def splitLinesAux : Str → Str → List Str
  | [], acc => [acc.reverse]
  | c :: rest, acc =>
    if c = '\n' then finishLine acc :: splitLinesAux rest []
    else splitLinesAux rest (c :: acc)

/-- Embedding of content.split(/\r?\n/) from parseHostsFileContent. -/
def splitLines (s : Str) : List Str := splitLinesAux s []

mutual
/-- Accumulator worker for `splitWs`: the accumulator holds the current
token reversed. -/
def splitWsAux : Str → Str → List Str
  | [], acc => [acc.reverse]
  | c :: rest, acc =>
    if isSpace c then acc.reverse :: splitWsGap rest
    else splitWsAux rest (c :: acc)

/-- State of `splitWs` inside a whitespace run (the regex /\s+/ consumes
the whole run as one separator). -/
def splitWsGap : Str → List Str
  | [] => [[]]
  | c :: rest => if isSpace c then splitWsGap rest else splitWsAux rest [c]
end

/-- Embedding of s.split(/\s+/). -/
def splitWs (s : Str) : List Str := splitWsAux s []

/-- Embedding of Array.prototype.join with a one-character separator. -/
def joinSep (sep : Char) : List Str → Str
  | [] => []
  | [t] => t
  | t :: ts => t ++ sep :: joinSep sep ts

/-- Accumulator worker for `splitOnChar`. -/
def splitOnCharAux (d : Char) : Str → Str → List Str
  | [], acc => [acc.reverse]
  | c :: rest, acc =>
    if c = d then acc.reverse :: splitOnCharAux d rest []
    else splitOnCharAux d rest (c :: acc)

/-- Embedding of s.split(d) for a one-character separator string d. -/
def splitOnChar (d : Char) (s : Str) : List Str := splitOnCharAux d s []

/-- Embedding of Array.prototype.findIndex, returning none for -1. -/
def jsFindIndex {α : Type} (p : α → Bool) : List α → Option Nat
  | [] => none
  | x :: xs => if p x then some 0 else (jsFindIndex p xs).map (· + 1)

/-- Embedding of Array.prototype.find. -/
def jsFind {α : Type} (p : α → Bool) : List α → Option α
  | [] => none
  | x :: xs => if p x then some x else jsFind p xs

/-! ## Data model (src/types/hostsFile.ts) -/

/-- HostEntry from src/types/hostsFile.ts. -/
structure HostEntry where
  ip : Str
  hostname : Str
  enabled : Bool
  aliases : List Str
  comment : Option Str
  lineNumber : Nat
  raw : Str
deriving DecidableEq, Repr

/-- HostsFileLine = HostEntry | CommentLine as a tagged union; the
comment constructor carries the two CommentLine fields raw and
lineNumber. -/
inductive HostsFileLine where
  | entry (e : HostEntry)
  | comment (raw : Str) (lineNumber : Nat)
deriving DecidableEq, Repr

/-- Discriminator mirroring the source test ('ip' in line). -/
def isEntryLine : HostsFileLine → Bool
  | .entry _ => true
  | .comment _ _ => false

def lineNumberOf : HostsFileLine → Nat
  | .entry e => e.lineNumber
  | .comment _ n => n

/-- ParsedHostsFile from src/types/hostsFile.ts; the Date value
lastModified is modelled as a Nat timestamp. -/
structure ParsedHostsFile where
  lines : List HostsFileLine
  entries : List HostEntry
  filePath : Str
  lastModified : Nat
deriving DecidableEq, Repr

/-! ## Parser (HostsFileService.parseLine / parseHostsFileContent) -/

def hc1 : Str := "# This is a sample hosts file".data
def hc2 : Str := "# Commented entry".data

def startsWithHash (s : Str) : Bool := s.head? = some '#'

/-- Embedding of trimmedLine.replace(/^#\s*/, ''): the replace removes a
single leading hash together with the whitespace run following it, and
leaves any other string unchanged.  The same function also realises the
optional leading group (?:#\s*)? of ipv4Regex and ipv6Regex: when the
string starts with a hash the group is forced to consume it (the
following character classes exclude the hash), and since \s is disjoint
from the following classes the greedy \s* consumes exactly the
whitespace run. -/
def stripMarker (s : Str) : Str :=
  match s with
  | '#' :: rest => rest.dropWhile isSpace
  | _ => s

/-- Character class [:0-9a-fA-F] of ipv6Regex. -/
def isHexColonChar (c : Char) : Bool :=
  c = ':' || c.isDigit || ('a' ≤ c && c ≤ 'f') || ('A' ≤ c && c ≤ 'F')

/-- One step of the dotted-quad part of ipv4Regex: consume \d+ followed
by a literal dot and return the remainder.  Digits and the dot are
disjoint, so the greedy \d+ run is the only possible match. -/
def digitRunThenDot (s : Str) : Option Str :=
  if s.takeWhile Char.isDigit = [] then none
  else
    match s.dropWhile Char.isDigit with
    | '.' :: rest => some rest
    | _ => none

/-- Tail part \s+([^\s#]+) shared by ipv4Regex and ipv6Regex, as a
prefix match: at least one whitespace character, then at least one
character that is neither whitespace nor a hash.  The whitespace run is
consumed greedily; backtracking cannot help because [^\s#] excludes
whitespace. -/
def wsThenNameStart (s : Str) : Bool :=
  match s with
  | c :: rest =>
    isSpace c &&
      (match rest.dropWhile isSpace with
       | d :: _ => d ≠ '#'
       | [] => false)
  | [] => false

/-- Core of ipv4Regex = /^(?:#\s*)?(\d+\.\d+\.\d+\.\d+)\s+([^\s#]+)/
after the optional marker has been removed (prefix match). -/
def ipv4Core (u : Str) : Bool :=
  match digitRunThenDot u with
  | none => false
  | some s1 =>
    match digitRunThenDot s1 with
    | none => false
    | some s2 =>
      match digitRunThenDot s2 with
      | none => false
      | some s3 =>
        s3.takeWhile Char.isDigit ≠ [] && wsThenNameStart (s3.dropWhile Char.isDigit)

/-- Core of ipv6Regex = /^(?:#\s*)?([:0-9a-fA-F]+)\s+([^\s#]+)/ after
the optional marker has been removed (prefix match). -/
def ipv6Core (u : Str) : Bool :=
  u.takeWhile isHexColonChar ≠ [] && wsThenNameStart (u.dropWhile isHexColonChar)

/-- trimmedLine.match(ipv4Regex) as a boolean test. -/
def matchIPv4 (t : Str) : Bool := ipv4Core (stripMarker t)

/-- trimmedLine.match(ipv6Regex) as a boolean test. -/
def matchIPv6 (t : Str) : Bool := ipv6Core (stripMarker t)

/-- Embedding of HostsFileService.parseLine.  The comment-scan loop over
parts from index 2 is expressed with drop 2 and findIndex; aliases =
parts.slice(2, commentIndex) = rest.take idx and the comment text is
parts.slice(commentIndex).join(' ') = rest.drop idx joined; when
parts.length <= 2 the drop yields [] so aliases = [] and comment is
absent, as in the source. -/
def parseLine (line : Str) (lineNumber : Nat) : HostsFileLine :=
  let trimmedLine := trim line
  if trimmedLine = hc1 || trimmedLine = hc2 || trimmedLine = [] then
    .comment line lineNumber
  else if matchIPv4 trimmedLine || matchIPv6 trimmedLine then
    let isCommented := startsWithHash trimmedLine
    let parts := splitWs (stripMarker trimmedLine)
    let ip := parts.getD 0 []
    let hostname := parts.getD 1 []
    let rest := parts.drop 2
    match jsFindIndex startsWithHash rest with
    | some idx =>
        .entry { ip := ip, hostname := hostname, enabled := !isCommented,
                 aliases := rest.take idx,
                 comment := some (joinSep ' ' (rest.drop idx)),
                 lineNumber := lineNumber, raw := line }
    | none =>
        .entry { ip := ip, hostname := hostname, enabled := !isCommented,
                 aliases := rest, comment := none,
                 lineNumber := lineNumber, raw := line }
  else .comment line lineNumber

/-- The entry-collecting side of the forEach loop in
parseHostsFileContent: every parsed line with an ip field is pushed
onto the entries array in order. -/
def entriesOf : List HostsFileLine → List HostEntry
  | [] => []
  | .entry e :: ls => e :: entriesOf ls
  | .comment _ _ :: ls => entriesOf ls

/-- The enumerated mapping of parseLine over the split lines (the
forEach with 0-based index), starting at index i. -/
def parseLinesFrom : Nat → List Str → List HostsFileLine
  | _, [] => []
  | i, l :: ls => parseLine l i :: parseLinesFrom (i + 1) ls

/-- Embedding of HostsFileService.parseHostsFileContent. -/
def parseHostsFileContent (content : Str) (path : Str) (mtime : Nat) :
    ParsedHostsFile :=
  let parsedLines := parseLinesFrom 0 (splitLines content)
  { lines := parsedLines
    entries := entriesOf parsedLines
    filePath := path
    lastModified := mtime }

/-! ## Serializer (HostsFileWriter.lineToString / convertToString) -/

/-- Embedding of HostsFileWriter.lineToString.  The comment guard
mirrors JS truthiness: an absent comment and an empty comment string
are both skipped. -/
def lineToString : HostsFileLine → Str
  | .comment raw _ => raw
  | .entry e =>
    let pfx : Str := if e.enabled then [] else ['#', ' ']
    let base := pfx ++ e.ip ++ '\t' :: e.hostname
    let withAliases :=
      if e.aliases.length > 0 then base ++ ' ' :: joinSep ' ' e.aliases else base
    match e.comment with
    | some c => if c.length > 0 then withAliases ++ ' ' :: c else withAliases
    | none => withAliases

/-- Stable insertion step for the sort by lineNumber (Array.prototype
.sort with comparator a.lineNumber - b.lineNumber is stable per
ES2019): the new element is placed before the first element with a key
not smaller than its own. -/
def insertByLN (x : HostsFileLine) : List HostsFileLine → List HostsFileLine
  | [] => [x]
  | y :: ys =>
    if lineNumberOf y < lineNumberOf x then y :: insertByLN x ys
    else x :: y :: ys

/-- Stable sort by lineNumber used by convertToString. -/
def sortByLN : List HostsFileLine → List HostsFileLine
  | [] => []
  | x :: xs => insertByLN x (sortByLN xs)

/-- Embedding of HostsFileWriter.convertToString. -/
def convertToString (parsedFile : ParsedHostsFile) : Str :=
  joinSep '\n' ((sortByLN parsedFile.lines).map lineToString)

/-! ## Validation (HostsFileWriter.validateHostEntry and helpers) -/

/-- Character class [0-9a-fA-F]. -/
def isHexDigitChar (c : Char) : Bool :=
  c.isDigit || ('a' ≤ c && c ≤ 'f') || ('A' ≤ c && c ≤ 'F')

/-- Character class [a-zA-Z0-9]. -/
def isAlnum (c : Char) : Bool := c.isAlpha || c.isDigit

/-- A hex group of 1 to 4 digits, [0-9a-fA-F]{1,4}. -/
def hexSeg14 (s : Str) : Bool :=
  decide (1 ≤ s.length) && decide (s.length ≤ 4) && s.all isHexDigitChar

/-- Anchored match of /^(\d{1,3}\.){3}\d{1,3}$/: four dot-separated
runs of 1 to 3 digits.  Digits cannot contain the separator, so the
bounded repetitions admit exactly this segment decomposition. -/
def ipv4FullShape (s : Str) : Bool :=
  let segs := splitOnChar '.' s
  decide (segs.length = 4) &&
    segs.all (fun g => decide (1 ≤ g.length) && decide (g.length ≤ 3) && g.all Char.isDigit)

/-- parseInt(octet, 10) <= 255 for the regex-guarded all-digit octets:
parseInt reads the leading digit run (NaN, which compares false, when
there is none). -/
def octetLe255 (s : Str) : Bool :=
  match s.takeWhile Char.isDigit with
  | [] => false
  | ds => decide ((ds.foldl (fun n c => n * 10 + (c.toNat - 48)) 0) ≤ 255)

/-- Anchored /^([0-9a-fA-F]{1,4}:){7}[0-9a-fA-F]{1,4}$/: eight
colon-separated hex groups. -/
def ipv6Full1 (s : Str) : Bool :=
  let segs := splitOnChar ':' s
  decide (segs.length = 8) && segs.all hexSeg14

/-- Anchored /^::([0-9a-fA-F]{1,4}:){0,6}[0-9a-fA-F]{1,4}$/: a leading
double colon then 1 to 7 hex groups. -/
def ipv6Full2 (s : Str) : Bool :=
  match s with
  | ':' :: ':' :: rest =>
    let segs := splitOnChar ':' rest
    decide (1 ≤ segs.length) && decide (segs.length ≤ 7) && segs.all hexSeg14
  | _ => false

/-- Anchored /^([0-9a-fA-F]{1,4}:){1,7}:$/: 1 to 7 hex groups each
followed by a colon, then a final colon; splitting on the colon yields
the groups followed by two empty segments. -/
def ipv6Full3 (s : Str) : Bool :=
  let segs := splitOnChar ':' s
  decide (3 ≤ segs.length) && decide (segs.length ≤ 9) &&
    (segs.take (segs.length - 2)).all hexSeg14 &&
    (segs.drop (segs.length - 2)).all (fun g => decide (g = []))

/-- Anchored match of the fourth pattern
/^([0-9a-fA-F]{1,4}:){1,6}:([0-9a-fA-F]{1,4}:){1,6}[0-9a-fA-F]{1,4}$/:
since hex groups are nonempty, any match has exactly one empty segment
in the colon-split, sitting after 1 to 6 leading groups and before 2 to
7 trailing groups. -/
def ipv6Full4 (s : Str) : Bool :=
  let segs := splitOnChar ':' s
  match jsFindIndex (fun g => decide (g = [])) segs with
  | none => false
  | some k =>
    decide (1 ≤ k) && decide (k ≤ 6) &&
      decide (2 ≤ segs.length - (k + 1)) && decide (segs.length - (k + 1) ≤ 7) &&
      (segs.take k).all hexSeg14 && (segs.drop (k + 1)).all hexSeg14

/-- Embedding of HostsFileWriter.isValidIP.  The first regex test
returns the octet check directly when the dotted shape matches, without
falling through to the IPv6 patterns, exactly as the source does. -/
def isValidIP (ip : Str) : Bool :=
  if ipv4FullShape ip then (splitOnChar '.' ip).all octetLe255
  else if ipv6Full1 ip then true
  else if ipv6Full2 ip then true
  else if ipv6Full3 ip then true
  else if ipv6Full4 ip then true
  else ip = "::1".data || ip = "localhost".data

/-- A label of the hostname regex, [a-zA-Z0-9]([a-zA-Z0-9\-]*[a-zA-Z0-9])*:
a nonempty string over alphanumerics and hyphens that starts and ends
with an alphanumeric. -/
def hostLabel (s : Str) : Bool :=
  decide (s ≠ []) && s.all (fun c => isAlnum c || c = '-') &&
    (match s.head? with | some c => isAlnum c | none => false) &&
    (match s.getLast? with | some c => isAlnum c | none => false)

/-- Embedding of HostsFileWriter.isValidHostname.  The anchored regex
is the language of nonempty dot-separated label lists; labels contain
no dot, so the split on the dot recovers them. -/
def isValidHostname (hostname : Str) : Bool :=
  if decide (hostname.length > 255) then false
  else
    (splitOnChar '.' hostname).all hostLabel &&
      (splitOnChar '.' hostname).all (fun seg => decide (seg.length ≤ 63))

/-- The entry fields passed to addHostEntry: Omit of HostEntry without
lineNumber and raw. -/
structure NewHostEntry where
  ip : Str
  hostname : Str
  enabled : Bool
  aliases : List Str
  comment : Option Str
deriving DecidableEq, Repr

/-- ValidationResult; errors is [] in place of undefined. -/
structure ValidationResult where
  valid : Bool
  errors : List Str
deriving DecidableEq, Repr

/-- Embedding of HostsFileWriter.validateHostEntry on the required
fields (the !entry.ip guard is JS falsiness: an absent or empty string
fails it). -/
def validateHostEntry (entry : NewHostEntry) : ValidationResult :=
  let ipErrors : List Str :=
    if entry.ip = [] then ["IP address is required".data]
    else if !isValidIP entry.ip then ["Invalid IP address format".data] else []
  let hostErrors : List Str :=
    if entry.hostname = [] then ["Hostname is required".data]
    else if !isValidHostname entry.hostname then ["Invalid hostname format".data] else []
  let aliasErrors : List Str :=
    entry.aliases.filterMap (fun aliasName =>
      if isValidHostname aliasName then none
      else some ("Invalid alias format: ".data ++ aliasName))
  let errors := ipErrors ++ hostErrors ++ aliasErrors
  { valid := errors.length = 0, errors := errors }

/-! ## Writer pipeline (HostsFileWriter.writeHostsFile and mutations)

The filesystem side effects of the write pipeline are modelled as an
action trace; the trace records what the success path of
writeHostsFile performs, in program order. -/

inductive FsAction where
  | copyFile (src dst : Str)
  | writeFile (path content : Str)
  | rename (src dst : Str)
  | sudoExec (cmd : Str)
  | unlink (path : Str)
deriving DecidableEq, Repr

def FsAction.isRename : FsAction → Bool
  | .rename _ _ => true
  | _ => false

def FsAction.isSudoExec : FsAction → Bool
  | .sudoExec _ => true
  | _ => false

/-- WriteOptions from hostsFileWriter.ts. -/
structure WriteOptions where
  createBackup : Bool
  useElevatedPermissions : Bool
deriving DecidableEq, Repr

/-- Backup path `${filePath}.backup.${Date.now()}` built by
createBackup. -/
def backupPath (filePath : Str) (now : Nat) : Str :=
  filePath ++ ".backup.".data ++ (toString now).data

/-- Temporary file path path.join(os.tmpdir(), `hoast-temp-${Date.now()}.txt`)
used by writeWithElevatedPermissions. -/
def tempFilePath (tmpDir : Str) (now : Nat) : Str :=
  tmpDir ++ '/' :: ("hoast-temp-".data ++ (toString now).data ++ ".txt".data)

/-- The elevated copy command: cmd.exe copy on Windows, tee plus rm on
Unix-like platforms. -/
def elevatedCommand (win : Bool) (tempPath filePath : Str) : Str :=
  if win then
    "cmd.exe /c copy \"".data ++ tempPath ++ "\" \"".data ++ filePath ++ "\" /Y".data
  else
    "tee \"".data ++ filePath ++ "\" < \"".data ++ tempPath ++
      "\" && rm \"".data ++ tempPath ++ "\"".data

/-- Side effects of writeWithElevatedPermissions: write the serialized
content to a temp file in the OS temp directory, run the elevated copy
command, and on Windows unlink the temp file afterwards (on Unix the rm
is part of the command). -/
def writeWithElevatedPermissionsActions (win : Bool) (tmpDir : Str) (now : Nat)
    (filePath content : Str) : List FsAction :=
  let tempPath := tempFilePath tmpDir now
  [FsAction.writeFile tempPath content,
   FsAction.sudoExec (elevatedCommand win tempPath filePath)] ++
    (if win then [FsAction.unlink tempPath] else [])

/-- Side-effect trace of the success path of
HostsFileWriter.writeHostsFile: optional backup copy, then either the
elevated hand-off or a plain fs.writeFile of the target path. -/
def writeHostsFileActions (parsedFile : ParsedHostsFile) (options : WriteOptions)
    (win : Bool) (tmpDir : Str) (now : Nat) : List FsAction :=
  (if options.createBackup then
    [FsAction.copyFile parsedFile.filePath (backupPath parsedFile.filePath now)]
   else []) ++
  (let content := convertToString parsedFile
   if options.useElevatedPermissions then
     writeWithElevatedPermissionsActions win tmpDir now parsedFile.filePath content
   else
     [FsAction.writeFile parsedFile.filePath content])

/-- Outcome of one mutation function: either writeHostsFile was invoked
with the updated document, or an error result was returned without any
write. -/
inductive MutationOutcome where
  | wrote (doc : ParsedHostsFile)
  | failed (msg : Str)
deriving DecidableEq, Repr

/-- Documents handed to writeHostsFile by a mutation (the mock write
surface of the spec). -/
def mutationWrites : MutationOutcome → List ParsedHostsFile
  | .wrote d => [d]
  | .failed _ => []

/-- Error message `Host entry not found with line number ${n}`. -/
def notFoundMsg (n : Nat) : Str :=
  "Host entry not found with line number ".data ++ (toString n).data

/-- Embedding of HostsFileWriter.updateHostEntry (the pure part: deep
clone, lookup, replacement; the trailing writeHostsFile call is the
wrote outcome). -/
def updateHostEntry (parsedFile : ParsedHostsFile) (updatedEntry : HostEntry) :
    MutationOutcome :=
  match jsFindIndex (fun line => lineNumberOf line == updatedEntry.lineNumber)
      parsedFile.lines with
  | none => .failed (notFoundMsg updatedEntry.lineNumber)
  | some lineIndex =>
    let lines2 := parsedFile.lines.set lineIndex (.entry updatedEntry)
    let entries2 :=
      match jsFindIndex (fun entry => entry.lineNumber == updatedEntry.lineNumber)
          parsedFile.entries with
      | some entryIndex => parsedFile.entries.set entryIndex updatedEntry
      | none => parsedFile.entries
    .wrote { parsedFile with lines := lines2, entries := entries2 }

/-- Embedding of HostsFileWriter.getNextLineNumber; Math.max over the
nonempty map equals the fold below. -/
def getNextLineNumber (parsedFile : ParsedHostsFile) : Nat :=
  if parsedFile.lines.length = 0 then 0
  else (parsedFile.lines.map lineNumberOf).foldr max 0 + 1

/-- The complete entry built by addHostEntry: the supplied fields plus
the next line number and an empty raw string. -/
def completeEntry (parsedFile : ParsedHostsFile) (newEntry : NewHostEntry) :
    HostEntry :=
  { ip := newEntry.ip, hostname := newEntry.hostname, enabled := newEntry.enabled,
    aliases := newEntry.aliases, comment := newEntry.comment,
    lineNumber := getNextLineNumber parsedFile, raw := [] }

/-- Embedding of HostsFileWriter.addHostEntry. -/
def addHostEntry (parsedFile : ParsedHostsFile) (newEntry : NewHostEntry) :
    MutationOutcome :=
  let validationResult := validateHostEntry newEntry
  if !validationResult.valid then
    .failed ("Validation failed: ".data ++ joinSep ' ' validationResult.errors)
  else
    let ce := completeEntry parsedFile newEntry
    .wrote { parsedFile with
             lines := parsedFile.lines ++ [.entry ce],
             entries := parsedFile.entries ++ [ce] }

/-- Embedding of HostsFileWriter.removeHostEntry: filter both arrays
and write unconditionally. -/
def removeHostEntry (parsedFile : ParsedHostsFile) (lineNumber : Nat) :
    MutationOutcome :=
  .wrote { parsedFile with
           lines := parsedFile.lines.filter (fun line => !(lineNumberOf line == lineNumber)),
           entries := parsedFile.entries.filter (fun entry => !(entry.lineNumber == lineNumber)) }

/-- Embedding of HostsFileWriter.toggleHostEntry. -/
def toggleHostEntry (parsedFile : ParsedHostsFile) (lineNumber : Nat) :
    MutationOutcome :=
  match jsFind (fun entry => entry.lineNumber == lineNumber) parsedFile.entries with
  | none => .failed (notFoundMsg lineNumber)
  | some entry =>
    updateHostEntry parsedFile { entry with enabled := !entry.enabled }

/-! ## Watcher model (HostsFileWatcher)

The watcher is modelled as a state machine over the fields of the
class; actions are the externally triggered callbacks.  A pending
setTimeout callback is the debounceTimer flag: handleFileChanged clears
any previous timer before arming a new one, so at most one callback is
ever pending, and timerFire is a no-op when no timer is pending
(cleared timers never run).  Chokidar delivers change and error
callbacks only while the subscription is open, hence the watcherOpen
guards; the timer callback, however, runs regardless of the watcher
state because stopWatching does not touch debounceTimer. -/

structure WatcherState where
  isWatching : Bool
  watcherOpen : Bool
  lastModified : Option Nat
  debounceTimer : Bool
deriving DecidableEq, Repr

inductive WatcherAction where
  | startWatching (statResult : Option Nat)
  | rawChange
  | watchError
  | timerFire (statResult : Option Nat)
  | stopWatching
deriving DecidableEq, Repr

inductive WatcherEvent where
  | changed
  | error
deriving DecidableEq, Repr

def WatcherAction.isStart : WatcherAction → Bool
  | .startWatching _ => true
  | _ => false

def initialWatcherState : WatcherState :=
  { isWatching := false, watcherOpen := false, lastModified := none,
    debounceTimer := false }

/-- One transition of the watcher, returning the next state and the
events emitted during it, mirroring startWatching, the chokidar change
and error handlers, the debounce callback of handleFileChanged, and
stopWatching. -/
def watcherStep (s : WatcherState) : WatcherAction → WatcherState × List WatcherEvent
  | .startWatching statResult =>
    if s.isWatching then (s, [])
    else
      match statResult with
      | none => ({ s with isWatching := false }, [])
      | some m =>
        ({ s with isWatching := true, watcherOpen := true, lastModified := some m }, [])
  | .rawChange =>
    if s.watcherOpen then ({ s with debounceTimer := true }, []) else (s, [])
  | .watchError =>
    if s.watcherOpen then (s, [.error]) else (s, [])
  | .timerFire statResult =>
    if s.debounceTimer then
      match statResult with
      | none => ({ s with debounceTimer := false }, [.error])
      | some m =>
        if s.lastModified = some m then ({ s with debounceTimer := false }, [])
        else ({ s with debounceTimer := false, lastModified := some m }, [.changed])
    else (s, [])
  | .stopWatching =>
    if !s.isWatching || !s.watcherOpen then (s, [])
    else ({ s with isWatching := false, watcherOpen := false }, [])

/-- Run a sequence of watcher actions, collecting emitted events. -/
def watcherRun (s : WatcherState) : List WatcherAction → WatcherState × List WatcherEvent
  | [] => (s, [])
  | a :: acts =>
    let r := watcherStep s a
    let r2 := watcherRun r.1 acts
    (r2.1, r.2 ++ r2.2)

/-! ## Semantic view of a line, and spec-side predicates -/

/-- The (lineNumber, variant, fields) view of a line used by the
semantic round-trip property: for an Entry the semantic fields are ip,
hostname, enabled flag, aliases and trailing comment; for a Comment the
raw text is the field.  The raw text of an Entry is presentation data
regenerated by the serializer and is not part of the semantic view. -/
inductive SemLine where
  | entry (ip hostname : Str) (enabled : Bool) (aliases : List Str)
      (comment : Option Str) (lineNumber : Nat)
  | comment (raw : Str) (lineNumber : Nat)
deriving DecidableEq, Repr

def semLine : HostsFileLine → SemLine
  | .entry e => .entry e.ip e.hostname e.enabled e.aliases e.comment e.lineNumber
  | .comment raw n => .comment raw n

/-- The multiset of semantic line views of a document. -/
def semMultiset (doc : ParsedHostsFile) : Multiset SemLine :=
  (doc.lines.map semLine : List SemLine)

/-- Modelled from the claim wording of C4 (refinement target, not from
the source): a line is claimed to be an Entry exactly when, after
stripping an optional leading hash marker, the first whitespace token
is a valid address (an IPv4 dotted quad, an IPv6 literal over hex
digits and colons, or the literal localhost) and a second name token is
present. -/
def claimedValidAddress (a : Str) : Bool :=
  (let segs := splitOnChar '.' a
   decide (segs.length = 4) && segs.all (fun g => decide (g ≠ []) && g.all Char.isDigit)) ||
  (decide (a ≠ []) && a.all isHexColonChar) ||
  a = "localhost".data

/-- Modelled from the claim wording of C4 (refinement target, not from
the source): the claimed Entry classification condition. -/
def claimedEntryCond (line : Str) : Bool :=
  match splitWs (stripMarker (trim line)) with
  | tok1 :: tok2 :: _ => decide (tok2 ≠ []) && claimedValidAddress tok1
  | _ => false

/-! ## Proof-helper definitions (not from the source) -/

/-- Proof helper (not from the source): the token list produced after
the first token of a whitespace split. -/
def splitWsTail (s : Str) : List Str :=
  match s.dropWhile notSpace with
  | [] => []
  | _ :: r => splitWsGap r

/-- Proof helper (not from the source): shape of a dotted quad as
matched by the group of ipv4Regex. -/
def QuadShape (q : Str) : Prop :=
  ∃ d1 d2 d3 d4 : Str,
    q = d1 ++ '.' :: (d2 ++ '.' :: (d3 ++ '.' :: d4)) ∧
    d1 ≠ [] ∧ d2 ≠ [] ∧ d3 ≠ [] ∧ d4 ≠ [] ∧
    (∀ c ∈ d1, c.isDigit = true) ∧ (∀ c ∈ d2, c.isDigit = true) ∧
    (∀ c ∈ d3, c.isDigit = true) ∧ (∀ c ∈ d4, c.isDigit = true)

/-- Proof helper (not from the source): shape of the hex-and-colon run
matched by the group of ipv6Regex. -/
def HexShape (q : Str) : Prop :=
  q ≠ [] ∧ ∀ c ∈ q, isHexColonChar c = true

/-- Proof helper (not from the source): well-formed whitespace tokens. -/
def GoodToks (toks : List Str) : Prop :=
  ∀ t ∈ toks, t ≠ [] ∧ ∀ c ∈ t, isSpace c = false

/-! ## Concrete sample data for evaluating the claims -/

/-- Sample document: the parse of a two-line hosts file with one entry
carrying an alias and a trailing comment, and one comment line. -/
def demoDoc : ParsedHostsFile :=
  parseHostsFileContent "127.0.0.1\tlocalhost home # dev\n# note".data
    "/etc/hosts".data 0

/-- The entry of demoDoc with its enabled flag flipped. -/
def toggledDemoEntry : HostEntry :=
  { ip := "127.0.0.1".data, hostname := "localhost".data, enabled := false,
    aliases := ["home".data], comment := some "# dev".data, lineNumber := 0,
    raw := "127.0.0.1\tlocalhost home # dev".data }

/-- demoDoc after its entry at line number 0 is toggled once. -/
def toggledDemoDoc : ParsedHostsFile :=
  { lines := [.entry toggledDemoEntry, .comment "# note".data 1],
    entries := [toggledDemoEntry], filePath := "/etc/hosts".data,
    lastModified := 0 }

/-- Sample six-line document whose largest line number is 5. -/
def demoDoc6 : ParsedHostsFile :=
  parseHostsFileContent "# a\n# b\n# c\n# d\n# e\n127.0.0.1 localhost".data
    "/etc/hosts".data 0

/-- Sample new-entry fields that pass validateHostEntry. -/
def demoNewEntry : NewHostEntry :=
  { ip := "192.168.1.5".data, hostname := "test.local".data, enabled := true,
    aliases := [], comment := none }

/-- Document holding a single comment line at line number 0, with the
entries invariant satisfied. -/
def commentOnlyDoc : ParsedHostsFile :=
  { lines := [.comment "# note".data 0], entries := [],
    filePath := "/etc/hosts".data, lastModified := 0 }

/-- An entry whose line number 0 collides with the comment line of
commentOnlyDoc. -/
def overwriteEntry : HostEntry :=
  { ip := "1.2.3.4".data, hostname := "h".data, enabled := true, aliases := [],
    comment := none, lineNumber := 0, raw := [] }

/-- An entry whose line number 7 occurs in no sample document. -/
def absentEntry : HostEntry :=
  { ip := "1.2.3.4".data, hostname := "h".data, enabled := true, aliases := [],
    comment := none, lineNumber := 7, raw := [] }

/-- A watching state with a pending debounce timer. -/
def watcherStateDemo : WatcherState :=
  { isWatching := true, watcherOpen := true, lastModified := some 0,
    debounceTimer := true }

/-! ## Generic list helper lemmas -/

theorem getLast?_append_right {α : Type} (a : List α) {b : List α} (hb : b ≠ []) :
    (a ++ b).getLast? = b.getLast? := by
  induction a with
  | nil => rfl
  | cons x xs ih =>
    rw [List.cons_append, List.getLast?_cons, ih]
    cases b with
    | nil => exact absurd rfl hb
    | cons y ys => simp [List.getLast?_cons]

theorem length_dropWhile_le' {α : Type} (p : α → Bool) (l : List α) :
    (l.dropWhile p).length ≤ l.length := by
  induction l with
  | nil => simp [List.dropWhile]
  | cons x xs ih =>
    rw [List.dropWhile_cons]
    by_cases h : p x = true
    · simp [h]; omega
    · simp [h]

theorem dropWhile_eq_nil_all {α : Type} {p : α → Bool} {l : List α}
    (h : l.dropWhile p = []) : ∀ c ∈ l, p c = true := by
  induction l with
  | nil => intro c hc; cases hc
  | cons x xs ih =>
    intro c hc
    rw [List.dropWhile_cons] at h
    by_cases hx : p x = true
    · rw [if_pos hx] at h
      rcases List.mem_cons.mp hc with rfl | hc2
      · exact hx
      · exact ih h c hc2
    · rw [if_neg hx] at h; cases h

theorem head_dropWhile_false {α : Type} {p : α → Bool} {l : List α} {c : α} {t : List α}
    (h : l.dropWhile p = c :: t) : p c = false := by
  induction l with
  | nil => simp [List.dropWhile] at h
  | cons x xs ih =>
    rw [List.dropWhile_cons] at h
    by_cases hx : p x = true
    · rw [if_pos hx] at h; exact ih h
    · rw [if_neg hx] at h
      injection h with h1 h2
      subst h1
      exact Bool.eq_false_iff.mpr hx

theorem dropWhile_append_all {α : Type} {p : α → Bool} {a : List α}
    (ha : ∀ c ∈ a, p c = true) (b : List α) :
    (a ++ b).dropWhile p = b.dropWhile p := by
  induction a with
  | nil => rfl
  | cons x xs ih =>
    rw [List.cons_append, List.dropWhile_cons]
    have hx := ha x (List.mem_cons_self x xs)
    simp only [hx, if_true]
    exact ih (fun c hc => ha c (List.mem_cons_of_mem x hc))

theorem takeWhile_append_all {α : Type} {p : α → Bool} {a : List α}
    (ha : ∀ c ∈ a, p c = true) (b : List α) :
    (a ++ b).takeWhile p = a ++ b.takeWhile p := by
  induction a with
  | nil => rfl
  | cons x xs ih =>
    rw [List.cons_append, List.takeWhile_cons]
    have hx := ha x (List.mem_cons_self x xs)
    simp only [hx, if_true, List.cons_append]
    rw [ih (fun c hc => ha c (List.mem_cons_of_mem x hc))]

theorem mem_takeWhile_prop {α : Type} {p : α → Bool} {l : List α} {c : α}
    (h : c ∈ l.takeWhile p) : p c = true ∧ c ∈ l := by
  induction l with
  | nil => simp [List.takeWhile] at h
  | cons x xs ih =>
    rw [List.takeWhile_cons] at h
    by_cases hx : p x = true
    · simp [hx] at h
      rcases h with rfl | h2
      · exact ⟨hx, List.mem_cons_self _ _⟩
      · exact ⟨(ih h2).1, List.mem_cons_of_mem _ (ih h2).2⟩
    · simp [hx] at h

theorem dropWhile_getLast?_eq {α : Type} {p : α → Bool} {l : List α}
    (h : l.dropWhile p ≠ []) : (l.dropWhile p).getLast? = l.getLast? := by
  conv_rhs => rw [← List.takeWhile_append_dropWhile (p := p) (l := l)]
  exact (getLast?_append_right _ h).symm

theorem getLast?_mem' {α : Type} {l : List α} {c : α} (h : l.getLast? = some c) :
    c ∈ l := by
  cases l with
  | nil => simp at h
  | cons x xs =>
    have := List.getLast?_eq_getLast (x :: xs) (by simp)
    rw [this] at h
    injection h with h2
    rw [← h2]
    exact List.getLast_mem _

/-! ## Character class facts -/

theorem digit_not_space {c : Char} (h : c.isDigit = true) : isSpace c = false := by
  unfold isSpace
  simp only [Bool.or_eq_false_iff, decide_eq_false_iff_not]
  refine ⟨⟨⟨⟨⟨?_, ?_⟩, ?_⟩, ?_⟩, ?_⟩, ?_⟩ <;> rintro rfl <;> revert h <;> decide

theorem hexcolon_not_space {c : Char} (h : isHexColonChar c = true) :
    isSpace c = false := by
  unfold isSpace
  simp only [Bool.or_eq_false_iff, decide_eq_false_iff_not]
  refine ⟨⟨⟨⟨⟨?_, ?_⟩, ?_⟩, ?_⟩, ?_⟩, ?_⟩ <;> rintro rfl <;> revert h <;> decide

theorem digit_ne_hash {c : Char} (h : c.isDigit = true) : c ≠ '#' := by
  rintro rfl; revert h; decide

theorem hexcolon_ne_hash {c : Char} (h : isHexColonChar c = true) : c ≠ '#' := by
  rintro rfl; revert h; decide

theorem digit_ne_nl {c : Char} (h : c.isDigit = true) : c ≠ '\n' := by
  rintro rfl; revert h; decide

theorem not_space_ne_nl {c : Char} (h : isSpace c = false) : c ≠ '\n' := by
  rintro rfl; revert h; decide

theorem not_space_ne_cr {c : Char} (h : isSpace c = false) : c ≠ '\r' := by
  rintro rfl; revert h; decide

/-! ## Facts about trim -/

theorem dropWhile_eq_self_of_head {α : Type} {p : α → Bool} {l : List α}
    (h : ∀ c, l.head? = some c → p c = false) : l.dropWhile p = l := by
  cases l with
  | nil => rfl
  | cons x xs =>
    rw [List.dropWhile_cons, if_neg]
    intro hx
    exact absurd (h x rfl) (by simp [hx])

theorem trim_head_not_space {l : Str} {c : Char} (h : (trim l).head? = some c) :
    isSpace c = false := by
  unfold trim at h
  rw [List.head?_reverse] at h
  have hne : (((l.dropWhile isSpace).reverse).dropWhile isSpace) ≠ [] := by
    intro he; rw [he] at h; cases h
  rw [dropWhile_getLast?_eq hne, List.getLast?_reverse] at h
  cases hw : (l.dropWhile isSpace) with
  | nil => rw [hw] at h; cases h
  | cons d t =>
    rw [hw] at h
    injection h with h1
    subst h1
    exact head_dropWhile_false hw

theorem trim_getLast_not_space {l : Str} {c : Char} (h : (trim l).getLast? = some c) :
    isSpace c = false := by
  unfold trim at h
  rw [List.getLast?_reverse] at h
  cases hy : ((l.dropWhile isSpace).reverse).dropWhile isSpace with
  | nil => rw [hy] at h; cases h
  | cons d t =>
    rw [hy] at h
    injection h with h1
    subst h1
    exact head_dropWhile_false hy

theorem trim_eq_self {s : Str}
    (hh : ∀ c, s.head? = some c → isSpace c = false)
    (hl : ∀ c, s.getLast? = some c → isSpace c = false) : trim s = s := by
  unfold trim
  rw [dropWhile_eq_self_of_head hh]
  rw [dropWhile_eq_self_of_head (by
    intro c hc
    rw [List.head?_reverse] at hc
    exact hl c hc)]
  exact List.reverse_reverse s

/-! ## Facts about splitLines -/

theorem splitLinesAux_ne_nil (s acc : Str) : splitLinesAux s acc ≠ [] := by
  cases s with
  | nil => simp [splitLinesAux]
  | cons c rest =>
    rw [splitLinesAux]
    by_cases h : c = '\n'
    · rw [if_pos h]; simp
    · rw [if_neg h]; exact splitLinesAux_ne_nil rest (c :: acc)

theorem splitLinesAux_append_noNl {p : Str} (hp : ∀ c ∈ p, c ≠ '\n') :
    ∀ s acc, splitLinesAux (p ++ s) acc = splitLinesAux s (p.reverse ++ acc) := by
  induction p with
  | nil => intro s acc; simp
  | cons c p2 ih =>
    intro s acc
    rw [List.cons_append, splitLinesAux,
      if_neg (hp c (List.mem_cons_self c p2))]
    rw [ih (fun d hd => hp d (List.mem_cons_of_mem c hd)) s (c :: acc)]
    simp

theorem finishLine_no_cr {acc : Str}
    (h : ∀ c, acc.head? = some c → c ≠ '\r') : finishLine acc = acc.reverse := by
  unfold finishLine
  split
  · exact absurd rfl (h '\r' rfl)
  · rfl

theorem splitLines_joinSep {pieces : List Str} (hne : pieces ≠ [])
    (hok : ∀ piece ∈ pieces,
      (∀ c ∈ piece, c ≠ '\n') ∧ (∀ c, piece.getLast? = some c → c ≠ '\r')) :
    splitLines (joinSep '\n' pieces) = pieces := by
  induction pieces with
  | nil => exact absurd rfl hne
  | cons p rest ih =>
    cases rest with
    | nil =>
      show splitLinesAux (joinSep '\n' [p]) [] = [p]
      have : joinSep '\n' [p] = p ++ [] := by simp [joinSep]
      rw [this, splitLinesAux_append_noNl (hok p (List.mem_cons_self p [])).1]
      simp [splitLinesAux]
    | cons q rest2 =>
      show splitLinesAux (joinSep '\n' (p :: q :: rest2)) [] = p :: q :: rest2
      have hj : joinSep '\n' (p :: q :: rest2) = p ++ '\n' :: joinSep '\n' (q :: rest2) := by
        rfl
      rw [hj, splitLinesAux_append_noNl (hok p (List.mem_cons_self p _)).1]
      rw [splitLinesAux, if_pos rfl]
      have hfin : finishLine (p.reverse ++ []) = p := by
        rw [List.append_nil, finishLine_no_cr, List.reverse_reverse]
        intro c hc
        rw [List.head?_reverse] at hc
        exact (hok p (List.mem_cons_self p _)).2 c hc
      rw [hfin]
      have := ih (by simp) (fun piece hpiece => hok piece (List.mem_cons_of_mem p hpiece))
      exact congrArg (List.cons p) this

theorem splitLines_ne_nil (s : Str) : splitLines s ≠ [] :=
  splitLinesAux_ne_nil s []

theorem finishLine_subset {acc : Str} {c : Char} (h : c ∈ finishLine acc) :
    c ∈ acc := by
  unfold finishLine at h
  split at h
  · exact List.mem_cons_of_mem _ (List.mem_reverse.mp h)
  · exact List.mem_reverse.mp h

theorem splitLinesAux_no_nl {s : Str} :
    ∀ acc, (∀ c ∈ acc, c ≠ '\n') →
      ∀ piece ∈ splitLinesAux s acc, ∀ c ∈ piece, c ≠ '\n' := by
  induction s with
  | nil =>
    intro acc hacc piece hpiece c hc
    simp [splitLinesAux] at hpiece
    subst hpiece
    exact hacc c (List.mem_reverse.mp hc)
  | cons d rest ih =>
    intro acc hacc piece hpiece c hc
    rw [splitLinesAux] at hpiece
    by_cases hd : d = '\n'
    · rw [if_pos hd] at hpiece
      rcases List.mem_cons.mp hpiece with rfl | h2
      · exact hacc c (finishLine_subset hc)
      · exact ih [] (by intro x hx; cases hx) piece h2 c hc
    · rw [if_neg hd] at hpiece
      refine ih (d :: acc) ?_ piece hpiece c hc
      intro x hx
      rcases List.mem_cons.mp hx with rfl | hx2
      · exact hd
      · exact hacc x hx2

theorem splitLines_no_nl {s : Str} {piece : Str} (hpiece : piece ∈ splitLines s) :
    ∀ c ∈ piece, c ≠ '\n' :=
  splitLinesAux_no_nl [] (by intro x hx; cases hx) piece hpiece

/-! ## Facts about splitWs -/

theorem takeWhile_all_eq_self {α : Type} {p : α → Bool} {l : List α}
    (h : ∀ c ∈ l, p c = true) : l.takeWhile p = l := by
  have := takeWhile_append_all h ([] : List α)
  simpa using this

theorem dropWhile_all_eq_nil {α : Type} {p : α → Bool} {l : List α}
    (h : ∀ c ∈ l, p c = true) : l.dropWhile p = [] := by
  have := dropWhile_append_all h ([] : List α)
  simpa using this

theorem splitWsGap_eq (r : Str) : splitWsGap r = splitWs (r.dropWhile isSpace) := by
  induction r with
  | nil => rfl
  | cons c r2 ih =>
    rw [splitWsGap, List.dropWhile_cons]
    by_cases hc : isSpace c = true
    · rw [if_pos hc, if_pos hc, ih]
    · rw [if_neg hc, if_neg hc, splitWs, splitWsAux, if_neg hc]

theorem splitWsAux_eq (s : Str) :
    ∀ acc, splitWsAux s acc = (acc.reverse ++ s.takeWhile notSpace) :: splitWsTail s := by
  induction s with
  | nil =>
    intro acc
    simp [splitWsAux, splitWsTail, List.takeWhile, List.dropWhile]
  | cons c s2 ih =>
    intro acc
    rw [splitWsAux]
    by_cases hc : isSpace c = true
    · rw [if_pos hc]
      have hns : notSpace c = false := by simp [notSpace, hc]
      have htake : (c :: s2).takeWhile notSpace = [] := by
        rw [List.takeWhile_cons, hns]
        simp
      have hdrop : (c :: s2).dropWhile notSpace = c :: s2 := by
        rw [List.dropWhile_cons, hns]
        simp
      have htail : splitWsTail (c :: s2) = splitWsGap s2 := by
        unfold splitWsTail
        rw [hdrop]
      rw [htake, htail]
      simp
    · rw [if_neg hc]
      have hns : notSpace c = true := by
        simp only [notSpace, Bool.not_eq_true']
        exact Bool.eq_false_iff.mpr hc
      rw [ih (c :: acc)]
      have htake : (c :: s2).takeWhile notSpace = c :: s2.takeWhile notSpace := by
        rw [List.takeWhile_cons, hns]
        simp
      have hdrop : (c :: s2).dropWhile notSpace = s2.dropWhile notSpace := by
        rw [List.dropWhile_cons, hns]
        simp
      have htail : splitWsTail (c :: s2) = splitWsTail s2 := by
        unfold splitWsTail
        rw [hdrop]
      rw [htake, htail]
      simp

theorem splitWs_eq_first (s : Str) :
    splitWs s = s.takeWhile notSpace :: splitWsTail s := by
  rw [splitWs, splitWsAux_eq s []]
  simp

theorem splitWs_app_sep {tok : Str} (htok : ∀ c ∈ tok, isSpace c = false)
    {sp : Char} (hsp : isSpace sp = true) (r : Str) :
    splitWs (tok ++ sp :: r) = tok :: splitWs (r.dropWhile isSpace) := by
  have hall : ∀ c ∈ tok, notSpace c = true := by
    intro c hc; simp [notSpace, htok c hc]
  have hns : notSpace sp = false := by simp [notSpace, hsp]
  rw [splitWs_eq_first]
  have htake : (tok ++ sp :: r).takeWhile notSpace = tok := by
    rw [takeWhile_append_all hall, List.takeWhile_cons, hns]
    simp
  have hdrop : (tok ++ sp :: r).dropWhile notSpace = sp :: r := by
    rw [dropWhile_append_all hall, List.dropWhile_cons, hns]
    simp
  have htail : splitWsTail (tok ++ sp :: r) = splitWsGap r := by
    unfold splitWsTail
    rw [hdrop]
  rw [htake, htail, splitWsGap_eq]

theorem splitWs_single {tok : Str} (htok : ∀ c ∈ tok, isSpace c = false) :
    splitWs tok = [tok] := by
  have hall : ∀ c ∈ tok, notSpace c = true := by
    intro c hc; simp [notSpace, htok c hc]
  rw [splitWs_eq_first]
  have htake : tok.takeWhile notSpace = tok := takeWhile_all_eq_self hall
  have hdrop : tok.dropWhile notSpace = [] := dropWhile_all_eq_nil hall
  have htail : splitWsTail tok = [] := by
    unfold splitWsTail
    rw [hdrop]
  rw [htake, htail]

theorem joinSep_cons_cons (sep : Char) (a : Str) {bs : List Str} (hbs : bs ≠ []) :
    joinSep sep (a :: bs) = a ++ sep :: joinSep sep bs := by
  cases bs with
  | nil => exact absurd rfl hbs
  | cons b bs2 => rfl

theorem joinSep_append (sep : Char) {as bs : List Str} (ha : as ≠ []) (hb : bs ≠ []) :
    joinSep sep (as ++ bs) = joinSep sep as ++ sep :: joinSep sep bs := by
  induction as with
  | nil => exact absurd rfl ha
  | cons a as2 ih =>
    cases as2 with
    | nil =>
      rw [List.cons_append, List.nil_append,
        joinSep_cons_cons sep a hb]
      rfl
    | cons a2 as3 =>
      rw [List.cons_append, joinSep_cons_cons sep a (by simp),
        joinSep_cons_cons sep a (by simp), ih (by simp)]
      simp

theorem head?_append_left {α : Type} {a : List α} (ha : a ≠ []) (b : List α) :
    (a ++ b).head? = a.head? := by
  cases a with
  | nil => exact absurd rfl ha
  | cons x xs => rfl

theorem head?_joinSep {sep : Char} {t : Str} {rest : List Str} (ht : t ≠ []) :
    (joinSep sep (t :: rest)).head? = t.head? := by
  cases rest with
  | nil => rfl
  | cons q rest2 =>
    rw [joinSep_cons_cons sep t (by simp), head?_append_left ht]

theorem splitWs_joinSep {toks : List Str} (hne : toks ≠ [])
    (hok : ∀ t ∈ toks, t ≠ [] ∧ ∀ c ∈ t, isSpace c = false) :
    splitWs (joinSep ' ' toks) = toks := by
  induction toks with
  | nil => exact absurd rfl hne
  | cons t rest ih =>
    cases rest with
    | nil => exact splitWs_single (hok t (List.mem_cons_self t _)).2
    | cons q rest2 =>
      rw [joinSep_cons_cons ' ' t (by simp)]
      rw [splitWs_app_sep (hok t (List.mem_cons_self t _)).2 (by decide)]
      have hq : ∀ c, (joinSep ' ' (q :: rest2)).head? = some c → isSpace c = false := by
        intro c hc
        have hqne : q ≠ [] := (hok q (by simp)).1
        rw [head?_joinSep hqne] at hc
        cases q with
        | nil => exact absurd rfl hqne
        | cons x xs =>
          injection hc with h1
          rw [← h1]
          exact (hok (x :: xs) (by simp)).2 x (List.mem_cons_self _ _)
      have : (joinSep ' ' (q :: rest2)).dropWhile isSpace = joinSep ' ' (q :: rest2) :=
        dropWhile_eq_self_of_head hq
      rw [this, ih (by simp) (fun t2 ht2 => hok t2 (List.mem_cons_of_mem t ht2))]

theorem mem_joinSep {sep : Char} {toks : List Str} {c : Char}
    (h : c ∈ joinSep sep toks) : c = sep ∨ ∃ t ∈ toks, c ∈ t := by
  induction toks with
  | nil => cases h
  | cons t rest ih =>
    cases rest with
    | nil =>
      right; exact ⟨t, List.mem_cons_self t _, h⟩
    | cons q rest2 =>
      rw [joinSep_cons_cons sep t (by simp)] at h
      rcases List.mem_append.mp h with h1 | h2
      · right; exact ⟨t, List.mem_cons_self t _, h1⟩
      · rcases List.mem_cons.mp h2 with rfl | h3
        · left; rfl
        · rcases ih h3 with h4 | ⟨t2, ht2, hc2⟩
          · left; exact h4
          · right; exact ⟨t2, List.mem_cons_of_mem t ht2, hc2⟩

theorem getLast?_cons_ne_nil {α : Type} (x : α) {r : List α} (hr : r ≠ []) :
    (x :: r).getLast? = r.getLast? := by
  have : x :: r = [x] ++ r := rfl
  rw [this, getLast?_append_right [x] hr]

theorem splitWs_tokens (s : Str) (h0 : s ≠ [])
    (hh : ∀ c, s.head? = some c → isSpace c = false)
    (hl : ∀ c, s.getLast? = some c → isSpace c = false) :
    ∀ tok ∈ splitWs s, tok ≠ [] ∧ ∀ c ∈ tok, isSpace c = false := by
  intro tok htok
  rw [splitWs_eq_first s] at htok
  rcases List.mem_cons.mp htok with rfl | htail
  · constructor
    · cases s with
      | nil => exact absurd rfl h0
      | cons c s2 =>
        have hns : notSpace c = true := by
          simp only [notSpace, Bool.not_eq_true']
          exact Bool.eq_false_iff.mpr (by
            intro hx
            exact absurd (hh c rfl) (by simp [hx]))
        rw [List.takeWhile_cons, hns]
        simp
    · intro c hc
      have := mem_takeWhile_prop hc
      simp only [notSpace, Bool.not_eq_true'] at this
      exact this.1
  · have hsplit : s.takeWhile notSpace ++ s.dropWhile notSpace = s :=
      List.takeWhile_append_dropWhile notSpace s
    unfold splitWsTail at htail
    cases hd : s.dropWhile notSpace with
    | nil => rw [hd] at htail; cases htail
    | cons sp r =>
      rw [hd] at htail
      replace htail : tok ∈ splitWsGap r := htail
      have hsp : isSpace sp = true := by
        simpa [notSpace] using head_dropWhile_false hd
      rw [splitWsGap_eq] at htail
      have hrne : r ≠ [] := by
        intro hr
        subst hr
        have : s.getLast? = some sp := by
          rw [← hsplit, hd, getLast?_append_right _ (by simp)]
          rfl
        exact absurd hsp (by simp [hl sp this])
      have hlast_sr : (sp :: r).getLast? = s.getLast? := by
        rw [← hsplit, hd, getLast?_append_right _ (by simp)]
      cases hv : r.dropWhile isSpace with
      | nil =>
        exfalso
        have hallr : ∀ c ∈ r, isSpace c = true := dropWhile_eq_nil_all hv
        cases hr2 : r.getLast? with
        | none =>
          cases r with
          | nil => exact hrne rfl
          | cons y r2 => rw [List.getLast?_cons] at hr2; simp at hr2
        | some clast =>
          have hc1 : s.getLast? = some clast := by
            rw [← hlast_sr, getLast?_cons_ne_nil sp hrne]
            exact hr2
          exact absurd (hallr clast (getLast?_mem' hr2)) (by simp [hl clast hc1])
      | cons d v2 =>
        have hvne : (r.dropWhile isSpace) ≠ [] := by rw [hv]; simp
        have hvh : ∀ c, (r.dropWhile isSpace).head? = some c → isSpace c = false := by
          intro c hc
          rw [hv] at hc
          injection hc with h1
          rw [← h1]
          exact head_dropWhile_false hv
        have hvl : ∀ c, (r.dropWhile isSpace).getLast? = some c → isSpace c = false := by
          intro c hc
          rw [dropWhile_getLast?_eq hvne] at hc
          refine hl c ?_
          rw [← hlast_sr, getLast?_cons_ne_nil sp hrne]
          exact hc
        have hlen : (r.dropWhile isSpace).length < s.length := by
          have h1 : (r.dropWhile isSpace).length ≤ r.length := length_dropWhile_le' _ _
          have h2 : (s.takeWhile notSpace).length + (sp :: r).length = s.length := by
            rw [← hd, ← List.length_append, hsplit]
          simp only [List.length_cons] at h2
          omega
        exact splitWs_tokens (r.dropWhile isSpace) hvne hvh hvl tok htail
termination_by s.length

theorem joinSep_ne_nil {sep : Char} {toks : List Str} (hne : toks ≠ [])
    (hok : ∀ t ∈ toks, t ≠ []) : joinSep sep toks ≠ [] := by
  cases toks with
  | nil => exact absurd rfl hne
  | cons t rest =>
    cases rest with
    | nil => exact hok t (List.mem_cons_self t _)
    | cons q rest2 =>
      rw [joinSep_cons_cons sep t (by simp)]
      simp

theorem getLast?_joinSep_mem {sep : Char} {toks : List Str} {c : Char}
    (hok : ∀ t ∈ toks, t ≠ []) (h : (joinSep sep toks).getLast? = some c) :
    ∃ t ∈ toks, t.getLast? = some c := by
  induction toks with
  | nil => cases h
  | cons t rest ih =>
    cases rest with
    | nil => exact ⟨t, List.mem_cons_self t _, h⟩
    | cons q rest2 =>
      rw [joinSep_cons_cons sep t (by simp)] at h
      have hjne : joinSep sep (q :: rest2) ≠ [] :=
        joinSep_ne_nil (by simp) (fun t2 ht2 => hok t2 (List.mem_cons_of_mem t ht2))
      rw [getLast?_append_right t (by simp)] at h
      have : (sep :: joinSep sep (q :: rest2)).getLast? = (joinSep sep (q :: rest2)).getLast? := by
        have hx : sep :: joinSep sep (q :: rest2) = [sep] ++ joinSep sep (q :: rest2) := rfl
        rw [hx, getLast?_append_right [sep] hjne]
      rw [this] at h
      rcases ih (fun t2 ht2 => hok t2 (List.mem_cons_of_mem t ht2)) h with ⟨t2, ht2, hc2⟩
      exact ⟨t2, List.mem_cons_of_mem t ht2, hc2⟩

/-! ## Inversion and rebuild lemmas for the address regex cores -/

theorem space_not_digit {c : Char} (h : isSpace c = true) : c.isDigit = false := by
  unfold isSpace at h
  simp only [Bool.or_eq_true, decide_eq_true_eq] at h
  rcases h with ((((h1 | h1) | h1) | h1) | h1) | h1 <;> subst h1 <;> decide

theorem space_not_hexcolon {c : Char} (h : isSpace c = true) :
    isHexColonChar c = false := by
  unfold isSpace at h
  simp only [Bool.or_eq_true, decide_eq_true_eq] at h
  rcases h with ((((h1 | h1) | h1) | h1) | h1) | h1 <;> subst h1 <;> decide

theorem digitRunThenDot_eq_some {u s1 : Str} (h : digitRunThenDot u = some s1) :
    u = u.takeWhile Char.isDigit ++ '.' :: s1 ∧ u.takeWhile Char.isDigit ≠ [] ∧
      ∀ c ∈ u.takeWhile Char.isDigit, c.isDigit = true := by
  rw [digitRunThenDot] at h
  split at h
  · cases h
  · rename_i hne
    split at h
    · rename_i rest heq
      injection h with h1
      subst h1
      refine ⟨?_, hne, fun c hc => (mem_takeWhile_prop hc).1⟩
      rw [← heq]
      exact (List.takeWhile_append_dropWhile Char.isDigit u).symm
    · cases h

theorem digitRunThenDot_build {d : Str} (hd : d ≠ [])
    (hdig : ∀ c ∈ d, c.isDigit = true) (rest : Str) :
    digitRunThenDot (d ++ '.' :: rest) = some rest := by
  rw [digitRunThenDot]
  have htake : (d ++ '.' :: rest).takeWhile Char.isDigit = d := by
    rw [takeWhile_append_all hdig, List.takeWhile_cons]
    simp
  have hdrop : (d ++ '.' :: rest).dropWhile Char.isDigit = '.' :: rest := by
    rw [dropWhile_append_all hdig, List.dropWhile_cons]
    simp
  rw [htake, if_neg hd, hdrop]
  rfl

theorem wsThenNameStart_eq_true {w : Str} (h : wsThenNameStart w = true) :
    ∃ sp r, w = sp :: r ∧ isSpace sp = true ∧
      ∃ nm rest2, r.dropWhile isSpace = nm :: rest2 ∧ isSpace nm = false ∧ nm ≠ '#' := by
  cases w with
  | nil => cases h
  | cons sp r =>
    rw [wsThenNameStart] at h
    rcases Bool.and_eq_true_iff.mp h with ⟨hsp, hrest⟩
    refine ⟨sp, r, rfl, hsp, ?_⟩
    cases hd : r.dropWhile isSpace with
    | nil => rw [hd] at hrest; cases hrest
    | cons nm rest2 =>
      rw [hd] at hrest
      refine ⟨nm, rest2, rfl, head_dropWhile_false hd, ?_⟩
      exact of_decide_eq_true hrest

theorem wsThenNameStart_build {sp : Char} (hsp : isSpace sp = true) {r : Str}
    {nm : Char} {rest2 : Str} (hr : r.dropWhile isSpace = nm :: rest2)
    (hnm : nm ≠ '#') : wsThenNameStart (sp :: r) = true := by
  rw [wsThenNameStart, hr]
  rw [Bool.and_eq_true_iff]
  exact ⟨hsp, decide_eq_true hnm⟩

theorem quadShape_chars {q : Str} (h : QuadShape q) :
    ∀ c ∈ q, c.isDigit = true ∨ c = '.' := by
  rcases h with ⟨d1, d2, d3, d4, rfl, _, _, _, _, h1, h2, h3, h4⟩
  intro c hc
  simp only [List.mem_append, List.mem_cons] at hc
  rcases hc with hc | hc | hc | hc | hc | hc | hc
  · exact Or.inl (h1 c hc)
  · exact Or.inr hc
  · exact Or.inl (h2 c hc)
  · exact Or.inr hc
  · exact Or.inl (h3 c hc)
  · exact Or.inr hc
  · exact Or.inl (h4 c hc)

theorem quadShape_not_space {q : Str} (h : QuadShape q) :
    ∀ c ∈ q, isSpace c = false := by
  intro c hc
  rcases quadShape_chars h c hc with hd | hd
  · exact digit_not_space hd
  · subst hd; decide

theorem quadShape_ne_nil {q : Str} (h : QuadShape q) : q ≠ [] := by
  rcases h with ⟨d1, d2, d3, d4, rfl, h1, _⟩
  cases d1 with
  | nil => exact absurd rfl h1
  | cons x xs => simp

theorem quadShape_head {q : Str} (h : QuadShape q) :
    ∀ c, q.head? = some c → c.isDigit = true := by
  rcases h with ⟨d1, d2, d3, d4, rfl, h1, _, _, _, hd1, _⟩
  intro c hc
  cases d1 with
  | nil => exact absurd rfl h1
  | cons x xs =>
    injection hc with h2
    rw [← h2]
    exact hd1 x (List.mem_cons_self _ _)

theorem hexShape_not_space {q : Str} (h : HexShape q) :
    ∀ c ∈ q, isSpace c = false := fun c hc => hexcolon_not_space (h.2 c hc)

theorem hexShape_head {q : Str} (h : HexShape q) :
    ∀ c, q.head? = some c → isHexColonChar c = true := by
  intro c hc
  exact h.2 c (by
    cases q with
    | nil => cases hc
    | cons x xs =>
      injection hc with h2
      rw [← h2]
      exact List.mem_cons_self _ _)

theorem ipv4Core_decomp {u : Str} (h : ipv4Core u = true) :
    ∃ q w, u = q ++ w ∧ QuadShape q ∧ wsThenNameStart w = true := by
  rw [ipv4Core] at h
  cases h1 : digitRunThenDot u with
  | none => rw [h1] at h; cases h
  | some s1 =>
    rw [h1] at h
    dsimp only at h
    cases h2 : digitRunThenDot s1 with
    | none => rw [h2] at h; cases h
    | some s2 =>
      rw [h2] at h
      dsimp only at h
      cases h3 : digitRunThenDot s2 with
      | none => rw [h3] at h; cases h
      | some s3 =>
        rw [h3] at h
        dsimp only at h
        rcases Bool.and_eq_true_iff.mp h with ⟨hd4, hws⟩
        rcases digitRunThenDot_eq_some h1 with ⟨hu, hne1, hdig1⟩
        rcases digitRunThenDot_eq_some h2 with ⟨hs1, hne2, hdig2⟩
        rcases digitRunThenDot_eq_some h3 with ⟨hs2, hne3, hdig3⟩
        have hs3 : s3 = s3.takeWhile Char.isDigit ++ s3.dropWhile Char.isDigit :=
          (List.takeWhile_append_dropWhile Char.isDigit s3).symm
        refine ⟨u.takeWhile Char.isDigit ++ '.' :: (s1.takeWhile Char.isDigit ++ '.' ::
          (s2.takeWhile Char.isDigit ++ '.' :: s3.takeWhile Char.isDigit)),
          s3.dropWhile Char.isDigit, ?_, ?_, ?_⟩
        · conv_lhs => rw [hu]
          conv_lhs => rw [hs1]
          conv_lhs => rw [hs2]
          conv_lhs => rw [hs3]
          simp [List.append_assoc]
        · exact ⟨u.takeWhile Char.isDigit, s1.takeWhile Char.isDigit,
            s2.takeWhile Char.isDigit, s3.takeWhile Char.isDigit, rfl,
            hne1, hne2, hne3, by simpa using hd4,
            hdig1, hdig2, hdig3, fun c hc => (mem_takeWhile_prop hc).1⟩
        · exact hws

theorem ipv4Core_build {q w : Str} (hq : QuadShape q) (hw : wsThenNameStart w = true) :
    ipv4Core (q ++ w) = true := by
  rcases hq with ⟨d1, d2, d3, d4, rfl, hne1, hne2, hne3, hne4, hdig1, hdig2, hdig3, hdig4⟩
  rcases wsThenNameStart_eq_true hw with ⟨sp, r, rfl, hsp, _⟩
  rw [ipv4Core]
  have happ : (d1 ++ '.' :: (d2 ++ '.' :: (d3 ++ '.' :: d4))) ++ sp :: r =
      d1 ++ '.' :: (d2 ++ '.' :: (d3 ++ '.' :: (d4 ++ sp :: r))) := by
    simp [List.append_assoc]
  rw [happ]
  rw [digitRunThenDot_build hne1 hdig1]
  dsimp only
  rw [digitRunThenDot_build hne2 hdig2]
  dsimp only
  rw [digitRunThenDot_build hne3 hdig3]
  dsimp only
  have htake : (d4 ++ sp :: r).takeWhile Char.isDigit = d4 := by
    rw [takeWhile_append_all hdig4, List.takeWhile_cons, space_not_digit hsp]
    simp
  have hdrop : (d4 ++ sp :: r).dropWhile Char.isDigit = sp :: r := by
    rw [dropWhile_append_all hdig4, List.dropWhile_cons, space_not_digit hsp]
    simp
  rw [htake, hdrop, Bool.and_eq_true_iff]
  exact ⟨by simpa using hne4, hw⟩

theorem ipv6Core_decomp {u : Str} (h : ipv6Core u = true) :
    ∃ q w, u = q ++ w ∧ HexShape q ∧ wsThenNameStart w = true := by
  rw [ipv6Core] at h
  rcases Bool.and_eq_true_iff.mp h with ⟨hne, hws⟩
  refine ⟨u.takeWhile isHexColonChar, u.dropWhile isHexColonChar,
    (List.takeWhile_append_dropWhile isHexColonChar u).symm,
    ⟨by simpa using hne, fun c hc => (mem_takeWhile_prop hc).1⟩, hws⟩

theorem ipv6Core_build {q w : Str} (hq : HexShape q) (hw : wsThenNameStart w = true) :
    ipv6Core (q ++ w) = true := by
  rcases wsThenNameStart_eq_true hw with ⟨sp, r, rfl, hsp, _⟩
  rw [ipv6Core]
  have htake : (q ++ sp :: r).takeWhile isHexColonChar = q := by
    rw [takeWhile_append_all hq.2, List.takeWhile_cons, space_not_hexcolon hsp]
    simp
  have hdrop : (q ++ sp :: r).dropWhile isHexColonChar = sp :: r := by
    rw [dropWhile_append_all hq.2, List.dropWhile_cons, space_not_hexcolon hsp]
    simp
  rw [htake, hdrop, Bool.and_eq_true_iff]
  exact ⟨by simpa using hq.1, hw⟩

/-! ## Facts about jsFindIndex, jsFind and List.set -/

theorem jsFindIndex_eq_none {α : Type} {p : α → Bool} {l : List α}
    (h : jsFindIndex p l = none) : ∀ a ∈ l, p a = false := by
  induction l with
  | nil => intro a ha; cases ha
  | cons x xs ih =>
    intro a ha
    rw [jsFindIndex] at h
    by_cases hx : p x = true
    · rw [if_pos hx] at h; cases h
    · rw [if_neg hx] at h
      rcases List.mem_cons.mp ha with rfl | ha2
      · exact Bool.eq_false_iff.mpr hx
      · cases hfi : jsFindIndex p xs with
        | none => exact ih hfi a ha2
        | some j => rw [hfi] at h; cases h

theorem jsFindIndex_eq_some {α : Type} {p : α → Bool} {l : List α} {i : Nat}
    (h : jsFindIndex p l = some i) :
    ∃ pre x post, l = pre ++ x :: post ∧ pre.length = i ∧ p x = true ∧
      ∀ a ∈ pre, p a = false := by
  induction l generalizing i with
  | nil => cases h
  | cons y xs ih =>
    rw [jsFindIndex] at h
    by_cases hy : p y = true
    · rw [if_pos hy] at h
      injection h with h1
      exact ⟨[], y, xs, rfl, h1, hy, by intro a ha; cases ha⟩
    · rw [if_neg hy] at h
      cases hfi : jsFindIndex p xs with
      | none => rw [hfi] at h; cases h
      | some j =>
        rw [hfi] at h
        injection h with h1
        rcases ih hfi with ⟨pre, x, post, rfl, hlen, hx, hpre⟩
        refine ⟨y :: pre, x, post, rfl, ?_, hx, ?_⟩
        · simp [hlen, h1]
        · intro a ha
          rcases List.mem_cons.mp ha with rfl | ha2
          · exact Bool.eq_false_iff.mpr hy
          · exact hpre a ha2

theorem jsFindIndex_append_cons {α : Type} {p : α → Bool} {pre : List α}
    (hpre : ∀ a ∈ pre, p a = false) {x : α} (hx : p x = true) (post : List α) :
    jsFindIndex p (pre ++ x :: post) = some pre.length := by
  induction pre with
  | nil => rw [List.nil_append, jsFindIndex, if_pos hx]; rfl
  | cons y ys ih =>
    rw [List.cons_append, jsFindIndex,
      if_neg (by simp [hpre y (List.mem_cons_self y ys)])]
    rw [ih (fun a ha => hpre a (List.mem_cons_of_mem y ha))]
    rfl

theorem jsFind_eq_some {α : Type} {p : α → Bool} {l : List α} {x : α}
    (h : jsFind p l = some x) :
    p x = true ∧ ∃ pre post, l = pre ++ x :: post ∧ ∀ a ∈ pre, p a = false := by
  induction l with
  | nil => cases h
  | cons y xs ih =>
    rw [jsFind] at h
    by_cases hy : p y = true
    · rw [if_pos hy] at h
      injection h with h1
      subst h1
      exact ⟨hy, [], xs, rfl, by intro a ha; cases ha⟩
    · rw [if_neg hy] at h
      rcases ih h with ⟨hx, pre, post, rfl, hpre⟩
      refine ⟨hx, y :: pre, post, rfl, ?_⟩
      intro a ha
      rcases List.mem_cons.mp ha with rfl | ha2
      · exact Bool.eq_false_iff.mpr hy
      · exact hpre a ha2

theorem jsFind_append_cons {α : Type} {p : α → Bool} {pre : List α}
    (hpre : ∀ a ∈ pre, p a = false) {x : α} (hx : p x = true) (post : List α) :
    jsFind p (pre ++ x :: post) = some x := by
  induction pre with
  | nil => rw [List.nil_append, jsFind, if_pos hx]
  | cons y ys ih =>
    rw [List.cons_append, jsFind,
      if_neg (by simp [hpre y (List.mem_cons_self y ys)])]
    exact ih (fun a ha => hpre a (List.mem_cons_of_mem y ha))

theorem jsFind_of_exists {α : Type} {p : α → Bool} {l : List α}
    (h : ∃ x ∈ l, p x = true) : ∃ y, jsFind p l = some y ∧ y ∈ l ∧ p y = true := by
  induction l with
  | nil => rcases h with ⟨x, hx, _⟩; cases hx
  | cons z xs ih =>
    rw [jsFind]
    by_cases hz : p z = true
    · rw [if_pos hz]
      exact ⟨z, rfl, List.mem_cons_self z xs, hz⟩
    · rw [if_neg hz]
      rcases h with ⟨x, hxm, hxp⟩
      rcases List.mem_cons.mp hxm with rfl | hxm2
      · exact absurd hxp hz
      · rcases ih ⟨x, hxm2, hxp⟩ with ⟨y, h1, h2, h3⟩
        exact ⟨y, h1, List.mem_cons_of_mem z h2, h3⟩

theorem set_append_cons {α : Type} (pre : List α) (x y : α) (post : List α) :
    (pre ++ x :: post).set pre.length y = pre ++ y :: post := by
  induction pre with
  | nil => rfl
  | cons z zs ih =>
    rw [List.cons_append, List.length_cons, List.set_cons_succ, ih]
    rfl

theorem take_append_cons {α : Type} (pre : List α) (x : α) (post : List α) :
    (pre ++ x :: post).take pre.length = pre := by
  induction pre with
  | nil => rfl
  | cons z zs ih =>
    rw [List.cons_append, List.length_cons, List.take_succ_cons, ih]

theorem drop_append_cons {α : Type} (pre : List α) (x : α) (post : List α) :
    (pre ++ x :: post).drop pre.length = x :: post := by
  induction pre with
  | nil => rfl
  | cons z zs ih =>
    rw [List.cons_append, List.length_cons, List.drop_succ_cons, ih]

/-! ## Inversion facts for parseLine -/

theorem stripMarker_getLast? {t : Str} (h : stripMarker t ≠ []) :
    (stripMarker t).getLast? = t.getLast? := by
  unfold stripMarker at h ⊢
  split
  · rename_i rest
    have hne : rest.dropWhile isSpace ≠ [] := h
    have hrne : rest ≠ [] := by
      intro hx
      subst hx
      exact hne rfl
    rw [dropWhile_getLast?_eq hne, getLast?_cons_ne_nil '#' hrne]
  · rfl

theorem startsWithHash_false_of_head {s : Str} {c : Char}
    (hc : s.head? = some c) (hne : c ≠ '#') : startsWithHash s = false := by
  rw [startsWithHash, hc]
  simp [hne]

theorem match_parts {t : Str} (hm : (matchIPv4 t || matchIPv6 t) = true)
    (hlast : ∀ c, t.getLast? = some c → isSpace c = false) :
    ∃ q tok2 restToks,
      splitWs (stripMarker t) = q :: tok2 :: restToks ∧
      (QuadShape q ∨ HexShape q) ∧
      tok2 ≠ [] ∧ (∀ c ∈ tok2, isSpace c = false) ∧ startsWithHash tok2 = false ∧
      GoodToks restToks := by
  have hcore : ∃ q w, stripMarker t = q ++ w ∧ (QuadShape q ∨ HexShape q) ∧
      wsThenNameStart w = true := by
    rcases Bool.or_eq_true_iff.mp hm with h4 | h6
    · rcases ipv4Core_decomp h4 with ⟨q, w, h1, h2, h3⟩
      exact ⟨q, w, h1, Or.inl h2, h3⟩
    · rcases ipv6Core_decomp h6 with ⟨q, w, h1, h2, h3⟩
      exact ⟨q, w, h1, Or.inr h2, h3⟩
  rcases hcore with ⟨q, w, hu, hshape, hws⟩
  rcases wsThenNameStart_eq_true hws with ⟨sp, r, rfl, hsp, nm, rest2, hv, hnmns, hnmh⟩
  have hqne : q ≠ [] := by
    rcases hshape with hq | hq
    · exact quadShape_ne_nil hq
    · exact hq.1
  have hqns : ∀ c ∈ q, isSpace c = false := by
    rcases hshape with hq | hq
    · exact quadShape_not_space hq
    · exact hexShape_not_space hq
  have hsplit : splitWs (stripMarker t) = q :: splitWs (r.dropWhile isSpace) := by
    rw [hu]
    exact splitWs_app_sep hqns hsp r
  have hsplit2 : splitWs (r.dropWhile isSpace) =
      (r.dropWhile isSpace).takeWhile notSpace :: splitWsTail (r.dropWhile isSpace) :=
    splitWs_eq_first _
  have hnmns' : notSpace nm = true := by simp [notSpace, hnmns]
  have htok2 : (r.dropWhile isSpace).takeWhile notSpace =
      nm :: rest2.takeWhile notSpace := by
    rw [hv, List.takeWhile_cons, hnmns']
    simp
  refine ⟨q, nm :: rest2.takeWhile notSpace,
    splitWsTail (r.dropWhile isSpace), ?_, hshape, by simp, ?_, ?_, ?_⟩
  · rw [hsplit, hsplit2, htok2]
  · intro c hc
    rcases List.mem_cons.mp hc with rfl | hc2
    · exact hnmns
    · rcases mem_takeWhile_prop hc2 with ⟨h1, _⟩
      simpa [notSpace] using h1
  · exact startsWithHash_false_of_head rfl hnmh
  · -- all tokens of the whole split are good; the rest tokens are among them
    have huneq : stripMarker t ≠ [] := by
      rw [hu]
      intro hx
      exact hqne (List.append_eq_nil.mp hx).1
    have huh : ∀ c, (stripMarker t).head? = some c → isSpace c = false := by
      intro c hc
      rw [hu, head?_append_left hqne] at hc
      rcases hshape with hq | hq
      · exact digit_not_space (quadShape_head hq c hc)
      · exact hexcolon_not_space (hexShape_head hq c hc)
    have hul : ∀ c, (stripMarker t).getLast? = some c → isSpace c = false := by
      intro c hc
      rw [stripMarker_getLast? huneq] at hc
      exact hlast c hc
    have hgood := splitWs_tokens (stripMarker t) huneq huh hul
    intro tok htok
    refine hgood tok ?_
    rw [hsplit, hsplit2]
    exact List.mem_cons_of_mem _ (List.mem_cons_of_mem _ htok)

theorem parseLine_comment_inv {l : Str} {i : Nat} {r : Str} {n : Nat}
    (h : parseLine l i = .comment r n) : r = l ∧ n = i := by
  rw [parseLine] at h
  split at h
  · injection h with h1 h2
    exact ⟨h1.symm, h2.symm⟩
  · split at h
    · dsimp only at h
      split at h
      · injection h
      · injection h
    · injection h with h1 h2
      exact ⟨h1.symm, h2.symm⟩

theorem parseLine_lineNumberOf (l : Str) (i : Nat) :
    lineNumberOf (parseLine l i) = i := by
  rw [parseLine]
  split
  · rfl
  · split
    · dsimp only
      split
      · rfl
      · rfl
    · rfl

theorem hc1_no_match : (matchIPv4 hc1 || matchIPv6 hc1) = false := by decide

theorem hc2_no_match : (matchIPv4 hc2 || matchIPv6 hc2) = false := by decide

/-- The classification actually computed by parseLine: a line is an
Entry exactly when its trimmed text matches ipv4Regex or ipv6Regex
(the hardcoded sample strings do not match either regex, so that branch
never masks an entry). -/
theorem isEntry_parseLine_eq (l : Str) (i : Nat) :
    isEntryLine (parseLine l i) = (matchIPv4 (trim l) || matchIPv6 (trim l)) := by
  rw [parseLine]
  split
  · rename_i hhard
    simp only [Bool.or_eq_true, decide_eq_true_eq] at hhard
    rcases hhard with (h1 | h2) | h3
    · rw [h1, hc1_no_match]; rfl
    · rw [h2, hc2_no_match]; rfl
    · rw [h3]; rfl
  · rename_i hhard
    split
    · rename_i hm
      dsimp only
      split
      · simp [isEntryLine, hm]
      · simp [isEntryLine, hm]
    · rename_i hm
      simp only [isEntryLine]
      exact (Bool.eq_false_iff.mpr hm).symm

theorem parseLine_entry_facts {l : Str} {i : Nat} {e : HostEntry}
    (h : parseLine l i = .entry e) :
    (QuadShape e.ip ∨ HexShape e.ip) ∧
    (e.hostname ≠ [] ∧ (∀ c ∈ e.hostname, isSpace c = false) ∧
      startsWithHash e.hostname = false) ∧
    GoodToks e.aliases ∧ (∀ a ∈ e.aliases, startsWithHash a = false) ∧
    (e.comment = none ∨ ∃ ct, e.comment = some (joinSep ' ' ct) ∧ ct ≠ [] ∧
      GoodToks ct ∧ startsWithHash (ct.headD []) = true) ∧
    e.lineNumber = i ∧ e.raw = l ∧ e.enabled = !(startsWithHash (trim l)) := by
  rw [parseLine] at h
  split at h
  · simp at h
  · split at h
    · rename_i hm
      dsimp only at h
      have hlast : ∀ c, (trim l).getLast? = some c → isSpace c = false :=
        fun c hc => trim_getLast_not_space hc
      rcases match_parts hm hlast with
        ⟨q, tok2, restToks, hp, hshape, ht2ne, ht2ns, ht2h, hgood⟩
      have hrest2 : List.drop 2 (splitWs (stripMarker (trim l))) = restToks := by
        rw [hp]
        rfl
      rw [hrest2, hp] at h
      split at h
      · rename_i idx hidx
        rcases jsFindIndex_eq_some hidx with ⟨pre, x, post, hdec, hlen, hx, hpre⟩
        injection h with h1
        subst h1
        have htake : restToks.take idx = pre := by
          rw [← hlen, hdec, take_append_cons]
        have hdrop : restToks.drop idx = x :: post := by
          rw [← hlen, hdec, drop_append_cons]
        refine ⟨hshape, ⟨ht2ne, ht2ns, ht2h⟩, ?_, ?_, ?_, rfl, rfl, rfl⟩
        · intro a ha
          rw [htake] at ha
          exact hgood a (by rw [hdec]; exact List.mem_append_left _ ha)
        · intro a ha
          rw [htake] at ha
          exact hpre a ha
        · right
          refine ⟨x :: post, by rw [hdrop], by simp, ?_, hx⟩
          intro a ha
          exact hgood a (by rw [hdec]; exact List.mem_append_right _ ha)
      · rename_i hidx
        have hnone := jsFindIndex_eq_none hidx
        injection h with h1
        subst h1
        exact ⟨hshape, ⟨ht2ne, ht2ns, ht2h⟩, hgood, hnone, Or.inl rfl, rfl, rfl, rfl⟩
    · simp at h

theorem stripMarker_no_hash {s : Str}
    (h : ∀ c, s.head? = some c → c ≠ '#') : stripMarker s = s := by
  unfold stripMarker
  split
  · exact absurd rfl (h '#' rfl)
  · rfl

theorem jsFindIndex_none_of_all {α : Type} {p : α → Bool} {l : List α}
    (h : ∀ a ∈ l, p a = false) : jsFindIndex p l = none := by
  induction l with
  | nil => rfl
  | cons x xs ih =>
    rw [jsFindIndex, if_neg (by simp [h x (List.mem_cons_self x xs)])]
    rw [ih (fun a ha => h a (List.mem_cons_of_mem x ha))]
    rfl

theorem parseLine_token_form {pfxB : Bool} {ip hd : Str} {rest : List Str} (j : Nat)
    (hq : QuadShape ip ∨ HexShape ip)
    (hhdne : hd ≠ []) (hhdns : ∀ c ∈ hd, isSpace c = false)
    (hhdh : startsWithHash hd = false)
    (hrest : GoodToks rest) :
    parseLine ((if pfxB then ['#', ' '] else []) ++ ip ++ '\t' :: joinSep ' ' (hd :: rest)) j =
      .entry { ip := ip, hostname := hd, enabled := !pfxB,
               aliases := (match jsFindIndex startsWithHash rest with
                           | some idx => rest.take idx
                           | none => rest),
               comment := (match jsFindIndex startsWithHash rest with
                           | some idx => some (joinSep ' ' (rest.drop idx))
                           | none => none),
               lineNumber := j,
               raw := (if pfxB then ['#', ' '] else []) ++ ip ++ '\t' ::
                 joinSep ' ' (hd :: rest) } := by
  have hqne : ip ≠ [] := by
    rcases hq with h1 | h1
    · exact quadShape_ne_nil h1
    · exact h1.1
  have hqns : ∀ c ∈ ip, isSpace c = false := by
    rcases hq with h1 | h1
    · exact quadShape_not_space h1
    · exact hexShape_not_space h1
  have hqh : ∀ c, ip.head? = some c → c ≠ '#' := by
    intro c hc
    rcases hq with h1 | h1
    · exact digit_ne_hash (quadShape_head h1 c hc)
    · exact hexcolon_ne_hash (hexShape_head h1 c hc)
  have hT : GoodToks (hd :: rest) := by
    intro t ht
    rcases List.mem_cons.mp ht with rfl | ht2
    · exact ⟨hhdne, hhdns⟩
    · exact hrest t ht2
  have hSne : joinSep ' ' (hd :: rest) ≠ [] :=
    joinSep_ne_nil (by simp) (fun t ht => (hT t ht).1)
  have hShead : (joinSep ' ' (hd :: rest)).head? = hd.head? := head?_joinSep hhdne
  obtain ⟨nmc, hdt, rfl⟩ : ∃ nmc hdt, hd = nmc :: hdt := by
    cases hd with
    | nil => exact absurd rfl hhdne
    | cons a b => exact ⟨a, b, rfl⟩
  have hnmns : isSpace nmc = false := hhdns nmc (List.mem_cons_self _ _)
  have hnmh : nmc ≠ '#' := by
    intro hx
    rw [startsWithHash] at hhdh
    simp [hx] at hhdh
  obtain ⟨Srest, hSeq⟩ : ∃ Srest, joinSep ' ' ((nmc :: hdt) :: rest) = nmc :: Srest := by
    cases hS : joinSep ' ' ((nmc :: hdt) :: rest) with
    | nil => exact absurd hS hSne
    | cons a b =>
      rw [hS] at hShead
      injection hShead with h1
      rw [h1]
      exact ⟨b, rfl⟩
  have hSlast : ∀ c, (joinSep ' ' ((nmc :: hdt) :: rest)).getLast? = some c →
      isSpace c = false := by
    intro c hc
    rcases getLast?_joinSep_mem (fun t ht => (hT t ht).1) hc with ⟨t, ht, htl⟩
    exact (hT t ht).2 c (getLast?_mem' htl)
  have hSdrop : (joinSep ' ' ((nmc :: hdt) :: rest)).dropWhile isSpace =
      joinSep ' ' ((nmc :: hdt) :: rest) := by
    refine dropWhile_eq_self_of_head ?_
    intro c hc
    rw [hShead] at hc
    injection hc with h1
    rw [← h1]
    exact hnmns
  have hSdropEq : (joinSep ' ' ((nmc :: hdt) :: rest)).dropWhile isSpace =
      nmc :: Srest := by
    rw [hSdrop, hSeq]
  have hws : wsThenNameStart ('\t' :: joinSep ' ' ((nmc :: hdt) :: rest)) = true :=
    wsThenNameStart_build (by decide) hSdropEq hnmh
  have hcore : (ipv4Core (ip ++ '\t' :: joinSep ' ' ((nmc :: hdt) :: rest)) ||
      ipv6Core (ip ++ '\t' :: joinSep ' ' ((nmc :: hdt) :: rest))) = true := by
    rcases hq with h1 | h1
    · rw [ipv4Core_build h1 hws]
      rfl
    · rw [ipv6Core_build h1 hws]
      simp
  have hsplitS : splitWs (ip ++ '\t' :: joinSep ' ' ((nmc :: hdt) :: rest)) =
      ip :: (nmc :: hdt) :: rest := by
    rw [splitWs_app_sep hqns (by decide), hSdrop]
    rw [splitWs_joinSep (by simp) hT]
  -- the two marker cases
  cases pfxB with
  | false =>
    have hrend : (if false then ['#', ' '] else []) ++ ip ++ '\t' ::
        joinSep ' ' ((nmc :: hdt) :: rest) =
        ip ++ '\t' :: joinSep ' ' ((nmc :: hdt) :: rest) := by simp
    rw [hrend]
    have hhead : ∀ c, (ip ++ '\t' :: joinSep ' ' ((nmc :: hdt) :: rest)).head? = some c →
        isSpace c = false ∧ c ≠ '#' := by
      intro c hc
      rw [head?_append_left hqne] at hc
      refine ⟨?_, hqh c hc⟩
      rcases hq with h1 | h1
      · exact digit_not_space (quadShape_head h1 c hc)
      · exact hexcolon_not_space (hexShape_head h1 c hc)
    have hlastr : ∀ c, (ip ++ '\t' :: joinSep ' ' ((nmc :: hdt) :: rest)).getLast? =
        some c → isSpace c = false := by
      intro c hc
      rw [getLast?_append_right ip (by simp),
        getLast?_cons_ne_nil '\t' hSne] at hc
      exact hSlast c hc
    have htrim : trim (ip ++ '\t' :: joinSep ' ' ((nmc :: hdt) :: rest)) =
        ip ++ '\t' :: joinSep ' ' ((nmc :: hdt) :: rest) :=
      trim_eq_self (fun c hc => (hhead c hc).1) hlastr
    have hstrip : stripMarker (ip ++ '\t' :: joinSep ' ' ((nmc :: hdt) :: rest)) =
        ip ++ '\t' :: joinSep ' ' ((nmc :: hdt) :: rest) :=
      stripMarker_no_hash (fun c hc => (hhead c hc).2)
    have htab : '\t' ∈ ip ++ '\t' :: joinSep ' ' ((nmc :: hdt) :: rest) :=
      List.mem_append_right _ (List.mem_cons_self _ _)
    rw [parseLine]
    rw [if_neg (by
      rw [htrim]
      simp only [Bool.or_eq_true, decide_eq_true_eq]
      push_neg
      refine ⟨⟨?_, ?_⟩, ?_⟩
      · intro hx; rw [hx] at htab; revert htab; decide
      · intro hx; rw [hx] at htab; revert htab; decide
      · intro hx; rw [hx] at htab; cases htab)]
    rw [if_pos (by
      rw [htrim]
      show (ipv4Core (stripMarker _) || ipv6Core (stripMarker _)) = true
      rw [hstrip]
      exact hcore)]
    dsimp only
    have hparts : splitWs (stripMarker (trim (ip ++ '\t' ::
        joinSep ' ' ((nmc :: hdt) :: rest)))) = ip :: (nmc :: hdt) :: rest := by
      rw [htrim, hstrip, hsplitS]
    have hdrop2 : List.drop 2 (splitWs (stripMarker (trim (ip ++ '\t' ::
        joinSep ' ' ((nmc :: hdt) :: rest))))) = rest := by
      rw [hparts]
      rfl
    have henb : startsWithHash (trim (ip ++ '\t' ::
        joinSep ' ' ((nmc :: hdt) :: rest))) = false := by
      rw [htrim]
      obtain ⟨a, ha⟩ : ∃ a, ip.head? = some a := by
        cases hip : ip with
        | nil => exact absurd hip hqne
        | cons a b => exact ⟨a, rfl⟩
      exact startsWithHash_false_of_head
        (by rw [head?_append_left hqne]; exact ha) (hqh a ha)
    rw [hdrop2, hparts, henb]
    cases hidx : jsFindIndex startsWithHash rest with
    | some idx => rfl
    | none => rfl
  | true =>
    have hrend : (if true then ['#', ' '] else []) ++ ip ++ '\t' ::
        joinSep ' ' ((nmc :: hdt) :: rest) =
        '#' :: ' ' :: (ip ++ '\t' :: joinSep ' ' ((nmc :: hdt) :: rest)) := by simp
    rw [hrend]
    have hlastr : ∀ c, ('#' :: ' ' :: (ip ++ '\t' ::
        joinSep ' ' ((nmc :: hdt) :: rest))).getLast? = some c → isSpace c = false := by
      intro c hc
      rw [getLast?_cons_ne_nil '#' (by simp),
        getLast?_cons_ne_nil ' ' (by
          intro hx
          exact hqne (List.append_eq_nil.mp hx).1),
        getLast?_append_right ip (by simp),
        getLast?_cons_ne_nil '\t' hSne] at hc
      exact hSlast c hc
    have htrim : trim ('#' :: ' ' :: (ip ++ '\t' ::
        joinSep ' ' ((nmc :: hdt) :: rest))) =
        '#' :: ' ' :: (ip ++ '\t' :: joinSep ' ' ((nmc :: hdt) :: rest)) := by
      refine trim_eq_self ?_ hlastr
      intro c hc
      injection hc with h1
      rw [← h1]
      decide
    have hstrip : stripMarker ('#' :: ' ' :: (ip ++ '\t' ::
        joinSep ' ' ((nmc :: hdt) :: rest))) =
        ip ++ '\t' :: joinSep ' ' ((nmc :: hdt) :: rest) := by
      show List.dropWhile isSpace (' ' :: (ip ++ '\t' ::
        joinSep ' ' ((nmc :: hdt) :: rest))) = _
      rw [List.dropWhile_cons, if_pos (by decide)]
      refine dropWhile_eq_self_of_head ?_
      intro c hc
      rw [head?_append_left hqne] at hc
      rcases hq with h1 | h1
      · exact digit_not_space (quadShape_head h1 c hc)
      · exact hexcolon_not_space (hexShape_head h1 c hc)
    have htab : '\t' ∈ '#' :: ' ' :: (ip ++ '\t' ::
        joinSep ' ' ((nmc :: hdt) :: rest)) := by
      refine List.mem_cons_of_mem _ (List.mem_cons_of_mem _ ?_)
      exact List.mem_append_right _ (List.mem_cons_self _ _)
    rw [parseLine]
    rw [if_neg (by
      rw [htrim]
      simp only [Bool.or_eq_true, decide_eq_true_eq]
      push_neg
      refine ⟨⟨?_, ?_⟩, ?_⟩
      · intro hx; rw [hx] at htab; revert htab; decide
      · intro hx; rw [hx] at htab; revert htab; decide
      · intro hx; rw [hx] at htab; cases htab)]
    rw [if_pos (by
      rw [htrim]
      show (ipv4Core (stripMarker _) || ipv6Core (stripMarker _)) = true
      rw [hstrip]
      exact hcore)]
    dsimp only
    have hparts : splitWs (stripMarker (trim ('#' :: ' ' :: (ip ++ '\t' ::
        joinSep ' ' ((nmc :: hdt) :: rest))))) = ip :: (nmc :: hdt) :: rest := by
      rw [htrim, hstrip, hsplitS]
    have hdrop2 : List.drop 2 (splitWs (stripMarker (trim ('#' :: ' ' :: (ip ++ '\t' ::
        joinSep ' ' ((nmc :: hdt) :: rest)))))) = rest := by
      rw [hparts]
      rfl
    have henb : startsWithHash (trim ('#' :: ' ' :: (ip ++ '\t' ::
        joinSep ' ' ((nmc :: hdt) :: rest)))) = true := by
      rw [htrim]
      rfl
    rw [hdrop2, hparts, henb]
    cases hidx : jsFindIndex startsWithHash rest with
    | some idx => rfl
    | none => rfl

theorem lineToString_fields_eq (ipF hostF : Str) (enF : Bool) (alF : List Str)
    (cmF : Option Str) (lnF : Nat) (rawF : Str) {ctl : List Str}
    (hcm : (cmF = none ∧ ctl = []) ∨
           (cmF = some (joinSep ' ' ctl) ∧ ctl ≠ [] ∧ GoodToks ctl)) :
    lineToString (.entry ⟨ipF, hostF, enF, alF, cmF, lnF, rawF⟩) =
      (if enF then [] else ['#', ' ']) ++ ipF ++ '\t' ::
        joinSep ' ' (hostF :: (alF ++ ctl)) := by
  rcases hcm with ⟨rfl, rfl⟩ | ⟨rfl, hctne, hctg⟩
  · rw [List.append_nil]
    cases alF with
    | nil => simp [lineToString, joinSep]
    | cons a als =>
      rw [joinSep_cons_cons ' ' hostF (by simp)]
      simp [lineToString, List.append_assoc]
  · have hjne : joinSep ' ' ctl ≠ [] :=
      joinSep_ne_nil hctne (fun t ht => (hctg t ht).1)
    have hlen : 0 < (joinSep ' ' ctl).length := by
      cases hj : joinSep ' ' ctl with
      | nil => exact absurd hj hjne
      | cons x xs => simp
    cases alF with
    | nil =>
      rw [List.nil_append, joinSep_cons_cons ' ' hostF hctne]
      simp [lineToString, hlen, List.append_assoc]
    | cons a als =>
      rw [joinSep_cons_cons ' ' hostF (by simp),
        joinSep_append ' ' (by simp) hctne]
      simp [lineToString, hlen, List.append_assoc]

theorem lineToString_entry_eq {e : HostEntry} {ctl : List Str}
    (hcm : (e.comment = none ∧ ctl = []) ∨
           (e.comment = some (joinSep ' ' ctl) ∧ ctl ≠ [] ∧ GoodToks ctl)) :
    lineToString (.entry e) =
      (if e.enabled then [] else ['#', ' ']) ++ e.ip ++ '\t' ::
        joinSep ' ' (e.hostname :: (e.aliases ++ ctl)) := by
  obtain ⟨i1, h1, e1, a1, c1, l1, r1⟩ := e
  exact lineToString_fields_eq i1 h1 e1 a1 c1 l1 r1 hcm

theorem render_reparse {e : HostEntry} (j : Nat)
    (hshape : QuadShape e.ip ∨ HexShape e.ip)
    (hhdne : e.hostname ≠ []) (hhdns : ∀ c ∈ e.hostname, isSpace c = false)
    (hhdh : startsWithHash e.hostname = false)
    (hal : GoodToks e.aliases) (halh : ∀ a ∈ e.aliases, startsWithHash a = false)
    (hcm : e.comment = none ∨ ∃ ct, e.comment = some (joinSep ' ' ct) ∧ ct ≠ [] ∧
      GoodToks ct ∧ startsWithHash (ct.headD []) = true) :
    parseLine (lineToString (.entry e)) j =
      .entry { e with lineNumber := j, raw := lineToString (.entry e) } := by
  have hpfx : (if e.enabled then ([] : Str) else ['#', ' ']) =
      (if !e.enabled then ['#', ' '] else ([] : Str)) := by
    cases e.enabled <;> rfl
  rcases hcm with hcn | ⟨ct, hcs, hctne, hctg, hcth⟩
  · -- no trailing comment
    have hrender := lineToString_entry_eq (e := e) (Or.inl ⟨hcn, rfl⟩)
    rw [List.append_nil] at hrender
    rw [hrender, hpfx]
    rw [parseLine_token_form j hshape hhdne hhdns hhdh hal]
    rw [jsFindIndex_none_of_all halh]
    dsimp only
    rw [Bool.not_not, hcn]
  · -- trailing comment tokens ct
    obtain ⟨x, post, rfl⟩ : ∃ x post, ct = x :: post := by
      cases ct with
      | nil => exact absurd rfl hctne
      | cons x post => exact ⟨x, post, rfl⟩
    have hx : startsWithHash x = true := hcth
    have hrender := lineToString_entry_eq (e := e) (Or.inr ⟨hcs, hctne, hctg⟩)
    rw [hrender, hpfx]
    have hrg : GoodToks (e.aliases ++ x :: post) := by
      intro t ht
      rcases List.mem_append.mp ht with h1 | h1
      · exact hal t h1
      · exact hctg t h1
    rw [parseLine_token_form j hshape hhdne hhdns hhdh hrg]
    rw [jsFindIndex_append_cons halh hx]
    dsimp only
    rw [Bool.not_not, take_append_cons, drop_append_cons, hcs]

theorem rendered_entry_ok {e : HostEntry}
    (hshape : QuadShape e.ip ∨ HexShape e.ip)
    (hhdne : e.hostname ≠ []) (hhdns : ∀ c ∈ e.hostname, isSpace c = false)
    (hal : GoodToks e.aliases)
    (hcm : e.comment = none ∨ ∃ ct, e.comment = some (joinSep ' ' ct) ∧ ct ≠ [] ∧
      GoodToks ct ∧ startsWithHash (ct.headD []) = true) :
    (∀ c ∈ lineToString (.entry e), c ≠ '\n') ∧
    (∀ c, (lineToString (.entry e)).getLast? = some c → c ≠ '\r') := by
  have hqns : ∀ c ∈ e.ip, isSpace c = false := by
    rcases hshape with h1 | h1
    · exact quadShape_not_space h1
    · exact hexShape_not_space h1
  have hctl : ∃ ctl, ((e.comment = none ∧ ctl = []) ∨
      (e.comment = some (joinSep ' ' ctl) ∧ ctl ≠ [] ∧ GoodToks ctl)) ∧
      GoodToks ctl := by
    rcases hcm with hcn | ⟨ct, h1, h2, h3, _⟩
    · exact ⟨[], Or.inl ⟨hcn, rfl⟩, by intro t ht; cases ht⟩
    · exact ⟨ct, Or.inr ⟨h1, h2, h3⟩, h3⟩
  rcases hctl with ⟨ctl, hcm2, hctlg⟩
  rw [lineToString_entry_eq hcm2]
  have hT : GoodToks (e.hostname :: (e.aliases ++ ctl)) := by
    intro t ht
    rcases List.mem_cons.mp ht with rfl | ht2
    · exact ⟨hhdne, hhdns⟩
    · rcases List.mem_append.mp ht2 with h1 | h1
      · exact hal t h1
      · exact hctlg t h1
  constructor
  · intro c hc
    rcases List.mem_append.mp hc with h1 | h1
    · rcases List.mem_append.mp h1 with h2 | h2
      · cases henb : e.enabled with
        | true => rw [henb] at h2; cases h2
        | false =>
          rw [henb] at h2
          rcases List.mem_cons.mp h2 with rfl | h3
          · decide
          · rcases List.mem_cons.mp h3 with rfl | h4
            · decide
            · cases h4
      · exact not_space_ne_nl (hqns c h2)
    · rcases List.mem_cons.mp h1 with rfl | h2
      · decide
      · rcases mem_joinSep h2 with rfl | ⟨t, ht, hct⟩
        · decide
        · exact not_space_ne_nl ((hT t ht).2 c hct)
  · intro c hc
    have hSne : joinSep ' ' (e.hostname :: (e.aliases ++ ctl)) ≠ [] :=
      joinSep_ne_nil (by simp) (fun t ht => (hT t ht).1)
    rw [getLast?_append_right _ (by simp)] at hc
    rw [getLast?_cons_ne_nil '\t' hSne] at hc
    rcases getLast?_joinSep_mem (fun t ht => (hT t ht).1) hc with ⟨t, ht, htl⟩
    exact not_space_ne_cr ((hT t ht).2 c (getLast?_mem' htl))

theorem semLine_roundtrip (l : Str) (j : Nat) :
    semLine (parseLine (lineToString (parseLine l j)) j) = semLine (parseLine l j) := by
  cases hpl : parseLine l j with
  | comment r n =>
    rcases parseLine_comment_inv hpl with ⟨h1, h2⟩
    have key : parseLine (lineToString (.comment r n)) j = .comment r n := by
      show parseLine r j = .comment r n
      conv_lhs => rw [h1]
      exact hpl
    rw [key]
  | entry e =>
    obtain ⟨hshape, ⟨hhdne, hhdns, hhdh⟩, hal, halh, hcm, hln, hraw, henb⟩ :=
      parseLine_entry_facts hpl
    rw [render_reparse j hshape hhdne hhdns hhdh hal halh hcm]
    rw [semLine, semLine]
    rw [hln]

theorem lineToString_parseLine_ok (l : Str) (j : Nat)
    (hnl : ∀ c ∈ l, c ≠ '\n') (hcr : ∀ c, l.getLast? = some c → c ≠ '\r') :
    (∀ c ∈ lineToString (parseLine l j), c ≠ '\n') ∧
    (∀ c, (lineToString (parseLine l j)).getLast? = some c → c ≠ '\r') := by
  cases hpl : parseLine l j with
  | comment r n =>
    rcases parseLine_comment_inv hpl with ⟨rfl, rfl⟩
    rw [lineToString]
    exact ⟨hnl, hcr⟩
  | entry e =>
    obtain ⟨hshape, ⟨hhdne, hhdns, hhdh⟩, hal, halh, hcm, hln, hraw, henb⟩ :=
      parseLine_entry_facts hpl
    exact rendered_entry_ok hshape hhdne hhdns hal hcm

/-! ## Sorting facts for parser output -/

theorem parseLinesFrom_ln_ge : ∀ (ls : List Str) (i : Nat),
    ∀ t ∈ parseLinesFrom i ls, i ≤ lineNumberOf t := by
  intro ls
  induction ls with
  | nil => intro i t ht; cases ht
  | cons l ls2 ih =>
    intro i t ht
    rcases List.mem_cons.mp ht with rfl | ht2
    · rw [parseLine_lineNumberOf]
    · have := ih (i + 1) t ht2
      omega

theorem sortByLN_parseLinesFrom : ∀ (ls : List Str) (i : Nat),
    sortByLN (parseLinesFrom i ls) = parseLinesFrom i ls := by
  intro ls
  induction ls with
  | nil => intro i; rfl
  | cons l ls2 ih =>
    intro i
    rw [parseLinesFrom, sortByLN, ih (i + 1)]
    cases hp : parseLinesFrom (i + 1) ls2 with
    | nil => rfl
    | cons y ys =>
      have h1 : i + 1 ≤ lineNumberOf y := by
        refine parseLinesFrom_ln_ge ls2 (i + 1) y ?_
        rw [hp]
        exact List.mem_cons_self _ _
      rw [insertByLN, if_neg (by rw [parseLine_lineNumberOf]; omega)]

/-! ## List-level round trip -/

theorem semList_roundtrip : ∀ (ls : List Str) (i : Nat),
    (parseLinesFrom i ((parseLinesFrom i ls).map lineToString)).map semLine =
      (parseLinesFrom i ls).map semLine := by
  intro ls
  induction ls with
  | nil => intro i; rfl
  | cons l ls2 ih =>
    intro i
    conv_lhs => rw [parseLinesFrom, List.map_cons, parseLinesFrom]
    conv_rhs => rw [parseLinesFrom]
    rw [List.map_cons, List.map_cons]
    rw [semLine_roundtrip l i, ih (i + 1)]

theorem parseLinesFrom_ne_nil {ls : List Str} (h : ls ≠ []) (i : Nat) :
    parseLinesFrom i ls ≠ [] := by
  cases ls with
  | nil => exact absurd rfl h
  | cons l ls2 => simp [parseLinesFrom]

theorem mem_parseLinesFrom {t : HostsFileLine} : ∀ {ls : List Str} {i : Nat},
    t ∈ parseLinesFrom i ls → ∃ l ∈ ls, ∃ j, t = parseLine l j := by
  intro ls
  induction ls with
  | nil => intro i h; cases h
  | cons l ls2 ih =>
    intro i h
    rcases List.mem_cons.mp h with rfl | h2
    · exact ⟨l, List.mem_cons_self _ _, i, rfl⟩
    · rcases ih h2 with ⟨l2, hl2, j, hj⟩
      exact ⟨l2, List.mem_cons_of_mem _ hl2, j, hj⟩

/-- The semantic round trip at the level of line lists, for any content
whose split lines do not end in a carriage return. -/
theorem roundtrip_lines (content path1 path2 : Str) (m1 m2 : Nat)
    (hcr : ∀ piece ∈ splitLines content, piece.getLast? ≠ some '\r') :
    (parseHostsFileContent
        (convertToString (parseHostsFileContent content path1 m1)) path2 m2).lines.map
      semLine =
    (parseHostsFileContent content path1 m1).lines.map semLine := by
  show (parseLinesFrom 0 (splitLines (convertToString
      (parseHostsFileContent content path1 m1)))).map semLine = _
  have hcv : convertToString (parseHostsFileContent content path1 m1) =
      joinSep '\n' ((parseLinesFrom 0 (splitLines content)).map lineToString) := by
    show joinSep '\n' ((sortByLN (parseLinesFrom 0 (splitLines content))).map
      lineToString) = _
    rw [sortByLN_parseLinesFrom]
  rw [hcv]
  have hsplit : splitLines (joinSep '\n'
      ((parseLinesFrom 0 (splitLines content)).map lineToString)) =
      (parseLinesFrom 0 (splitLines content)).map lineToString := by
    refine splitLines_joinSep ?_ ?_
    · intro hx
      exact parseLinesFrom_ne_nil (splitLines_ne_nil content) 0
        (List.map_eq_nil_iff.mp hx)
    · intro piece hpiece
      rcases List.mem_map.mp hpiece with ⟨t, ht, rfl⟩
      rcases mem_parseLinesFrom ht with ⟨l, hl, j, rfl⟩
      have hnl : ∀ c ∈ l, c ≠ '\n' := splitLines_no_nl hl
      have hlcr : ∀ c, l.getLast? = some c → c ≠ '\r' := by
        intro c hc hx
        subst hx
        exact hcr l hl hc
      exact lineToString_parseLine_ok l j hnl hlcr
  rw [hsplit]
  exact semList_roundtrip (splitLines content) 0

/-! ## Facts about entriesOf, jsFind and the mutation functions -/

theorem jsFind_none_of_all {α : Type} {p : α → Bool} {l : List α}
    (h : ∀ a ∈ l, p a = false) : jsFind p l = none := by
  induction l with
  | nil => rfl
  | cons x xs ih =>
    rw [jsFind, if_neg (by simp [h x (List.mem_cons_self x xs)])]
    exact ih (fun a ha => h a (List.mem_cons_of_mem x ha))

theorem filter_all_eq_self {α : Type} {p : α → Bool} {l : List α}
    (h : ∀ a ∈ l, p a = true) : l.filter p = l := by
  induction l with
  | nil => rfl
  | cons x xs ih =>
    rw [List.filter_cons, if_pos (h x (List.mem_cons_self x xs))]
    rw [ih (fun a ha => h a (List.mem_cons_of_mem x ha))]

theorem entriesOf_append : ∀ (a b : List HostsFileLine),
    entriesOf (a ++ b) = entriesOf a ++ entriesOf b := by
  intro a b
  induction a with
  | nil => rfl
  | cons t ls ih =>
    cases t with
    | entry e =>
      show entriesOf (.entry e :: (ls ++ b)) = _
      rw [entriesOf, ih]
      rfl
    | comment r m =>
      show entriesOf (.comment r m :: (ls ++ b)) = _
      rw [entriesOf, ih]
      rfl

theorem mem_entriesOf {e : HostEntry} : ∀ {l : List HostsFileLine},
    e ∈ entriesOf l ↔ HostsFileLine.entry e ∈ l := by
  intro l
  induction l with
  | nil => simp [entriesOf]
  | cons t ls ih =>
    cases t with
    | entry y =>
      rw [entriesOf]
      constructor
      · intro h
        rcases List.mem_cons.mp h with rfl | h2
        · exact List.mem_cons_self _ _
        · exact List.mem_cons_of_mem _ (ih.mp h2)
      · intro h
        rcases List.mem_cons.mp h with h1 | h2
        · injection h1 with h3
          rw [h3]
          exact List.mem_cons_self _ _
        · exact List.mem_cons_of_mem _ (ih.mpr h2)
    | comment r m =>
      rw [entriesOf]
      constructor
      · intro h
        exact List.mem_cons_of_mem _ (ih.mp h)
      · intro h
        rcases List.mem_cons.mp h with h1 | h2
        · injection h1
        · exact ih.mpr h2

theorem entriesOf_filter_ln (n : Nat) : ∀ (l : List HostsFileLine),
    entriesOf (l.filter (fun t => !(lineNumberOf t == n))) =
      (entriesOf l).filter (fun e => !(e.lineNumber == n)) := by
  intro l
  induction l with
  | nil => rfl
  | cons t ls ih =>
    cases t with
    | entry y =>
      rw [List.filter_cons]
      split
      · rename_i hp
        have hp2 : (!(y.lineNumber == n)) = true := hp
        rw [entriesOf, ih]
        conv_rhs => rw [entriesOf, List.filter_cons, if_pos hp2]
      · rename_i hp
        have hp2 : ¬(!(y.lineNumber == n)) = true := hp
        rw [ih]
        conv_rhs => rw [entriesOf, List.filter_cons, if_neg hp2]
    | comment r m =>
      rw [List.filter_cons]
      split
      · rw [entriesOf, ih]
        conv_rhs => rw [entriesOf]
      · rw [ih]
        conv_rhs => rw [entriesOf]

theorem nodup_ln_inj : ∀ {l : List HostsFileLine},
    (l.map lineNumberOf).Nodup →
    ∀ {a b : HostsFileLine}, a ∈ l → b ∈ l →
      lineNumberOf a = lineNumberOf b → a = b := by
  intro l
  induction l with
  | nil => intro _ a b ha; cases ha
  | cons t ls ih =>
    intro hnd a b ha hb heq
    rw [List.map_cons, List.nodup_cons] at hnd
    rcases List.mem_cons.mp ha with rfl | ha2
    · rcases List.mem_cons.mp hb with rfl | hb2
      · rfl
      · exact absurd (heq ▸ List.mem_map_of_mem lineNumberOf hb2) hnd.1
    · rcases List.mem_cons.mp hb with rfl | hb2
      · exact absurd (heq ▸ List.mem_map_of_mem lineNumberOf ha2) hnd.1
      · exact ih hnd.2 ha2 hb2 heq

theorem upd_inv_core (x : HostEntry) : ∀ (l : List HostsFileLine),
    (∀ t, jsFind (fun t2 => lineNumberOf t2 == x.lineNumber) l = some t →
      isEntryLine t = true) →
    ∀ i, jsFindIndex (fun t2 => lineNumberOf t2 == x.lineNumber) l = some i →
      entriesOf (l.set i (.entry x)) =
        (match jsFindIndex (fun e2 => e2.lineNumber == x.lineNumber) (entriesOf l) with
         | some j => (entriesOf l).set j x
         | none => entriesOf l) := by
  intro l
  induction l with
  | nil => intro _ i h; cases h
  | cons t ls ih =>
    intro hfirst i h
    rw [jsFindIndex] at h
    by_cases hp : (lineNumberOf t == x.lineNumber) = true
    · rw [if_pos hp] at h
      injection h with h1
      subst h1
      have ht : isEntryLine t = true := hfirst t (by rw [jsFind, if_pos hp])
      cases t with
      | comment r m => simp [isEntryLine] at ht
      | entry y =>
        show entriesOf (.entry x :: ls) = _
        rw [entriesOf]
        conv_rhs => rw [entriesOf]
        have hp2 : (y.lineNumber == x.lineNumber) = true := hp
        rw [jsFindIndex, if_pos hp2]
        rfl
    · rw [if_neg hp] at h
      cases hfi : jsFindIndex (fun t2 => lineNumberOf t2 == x.lineNumber) ls with
      | none => rw [hfi] at h; cases h
      | some i2 =>
        rw [hfi] at h
        injection h with h1
        rw [← h1]
        have hfirst2 : ∀ t2, jsFind (fun t3 => lineNumberOf t3 == x.lineNumber) ls =
            some t2 → isEntryLine t2 = true := by
          intro t2 ht2
          refine hfirst t2 ?_
          rw [jsFind, if_neg hp]
          exact ht2
        have ihh := ih hfirst2 i2 hfi
        rw [List.set_cons_succ]
        cases t with
        | entry y =>
          rw [entriesOf]
          conv_rhs => rw [entriesOf]
          have hp2 : (y.lineNumber == x.lineNumber) = false :=
            Bool.eq_false_iff.mpr hp
          rw [jsFindIndex, if_neg (by simp [hp2])]
          cases hfi2 : jsFindIndex (fun e2 => e2.lineNumber == x.lineNumber)
              (entriesOf ls) with
          | none =>
            rw [hfi2] at ihh
            rw [ihh]
            rfl
          | some j =>
            rw [hfi2] at ihh
            rw [ihh]
            rfl
        | comment r m =>
          rw [entriesOf]
          conv_rhs => rw [entriesOf]
          exact ihh

/-! ## Sorting an appended maximal element (for addHostEntry) -/

theorem insertByLN_append_big {x h : HostsFileLine}
    (hlt : lineNumberOf h < lineNumberOf x) :
    ∀ m : List HostsFileLine, insertByLN h (m ++ [x]) = insertByLN h m ++ [x] := by
  intro m
  induction m with
  | nil =>
    have h1 : insertByLN h [x] = h :: [x] := by
      rw [insertByLN, if_neg (by omega)]
    rw [List.nil_append, h1]
    rfl
  | cons y m2 ih =>
    rw [List.cons_append, insertByLN]
    by_cases hy : lineNumberOf y < lineNumberOf h
    · rw [if_pos hy, ih, insertByLN, if_pos hy]
      rfl
    · rw [if_neg hy, insertByLN, if_neg hy]
      rfl

theorem sortByLN_append_big {x : HostsFileLine} : ∀ {l : List HostsFileLine},
    (∀ y ∈ l, lineNumberOf y < lineNumberOf x) →
    sortByLN (l ++ [x]) = sortByLN l ++ [x] := by
  intro l
  induction l with
  | nil => intro _; rfl
  | cons h l2 ih =>
    intro hall
    rw [List.cons_append, sortByLN, ih (fun y hy => hall y (List.mem_cons_of_mem h hy))]
    rw [insertByLN_append_big (hall h (List.mem_cons_self h l2))]
    rfl

theorem insertByLN_ne_nil (x : HostsFileLine) : ∀ (l : List HostsFileLine),
    insertByLN x l ≠ [] := by
  intro l
  cases l with
  | nil => simp [insertByLN]
  | cons y ys =>
    rw [insertByLN]
    by_cases hy : lineNumberOf y < lineNumberOf x
    · rw [if_pos hy]; simp
    · rw [if_neg hy]; simp

theorem sortByLN_ne_nil {l : List HostsFileLine} (h : l ≠ []) :
    sortByLN l ≠ [] := by
  cases l with
  | nil => exact absurd rfl h
  | cons x xs => exact insertByLN_ne_nil x (sortByLN xs)

theorem mem_le_foldr_max : ∀ (l : List Nat) (x : Nat), x ∈ l → x ≤ l.foldr max 0 := by
  intro l
  induction l with
  | nil => intro x hx; cases hx
  | cons y ys ih =>
    intro x hx
    rcases List.mem_cons.mp hx with rfl | hx2
    · exact Nat.le_max_left _ _
    · exact Nat.le_trans (ih x hx2) (Nat.le_max_right _ _)

/-! ## Watcher run bound after the subscription is closed -/

theorem watcherRun_bound : ∀ (acts : List WatcherAction) (s : WatcherState),
    s.watcherOpen = false → (∀ a ∈ acts, a.isStart = false) →
    (watcherRun s acts).2.length ≤ (if s.debounceTimer then 1 else 0) := by
  intro acts
  induction acts with
  | nil =>
    intro s h1 h2
    simp [watcherRun]
  | cons a acts2 ih =>
    intro s h1 h2
    have ha := h2 a (List.mem_cons_self _ _)
    have h2' := fun b hb => h2 b (List.mem_cons_of_mem a hb)
    rw [watcherRun]
    cases a with
    | startWatching sr => simp [WatcherAction.isStart] at ha
    | rawChange =>
      have hstep : watcherStep s .rawChange = (s, []) := by
        rw [watcherStep, if_neg (by simp [h1])]
      rw [hstep]
      simpa using ih s h1 h2'
    | watchError =>
      have hstep : watcherStep s .watchError = (s, []) := by
        rw [watcherStep, if_neg (by simp [h1])]
      rw [hstep]
      simpa using ih s h1 h2'
    | stopWatching =>
      have hstep : watcherStep s .stopWatching = (s, []) := by
        rw [watcherStep, if_pos (by simp [h1])]
      rw [hstep]
      simpa using ih s h1 h2'
    | timerFire sr =>
      cases hdb : s.debounceTimer with
      | false =>
        have hstep : watcherStep s (.timerFire sr) = (s, []) := by
          simp only [watcherStep]
          rw [if_neg (by simp [hdb])]
        rw [hstep]
        have hrest := ih s h1 h2'
        rw [hdb] at hrest
        simpa using hrest
      | true =>
        have hkey : ∃ s2 ev, watcherStep s (.timerFire sr) = (s2, ev) ∧
            ev.length ≤ 1 ∧ s2.watcherOpen = false ∧ s2.debounceTimer = false := by
          simp only [watcherStep]
          rw [if_pos (by simp [hdb])]
          cases sr with
          | none => exact ⟨_, _, rfl, by simp, h1, rfl⟩
          | some m =>
            dsimp only
            by_cases hm : s.lastModified = some m
            · rw [if_pos hm]
              exact ⟨_, _, rfl, by simp, h1, rfl⟩
            · rw [if_neg hm]
              exact ⟨_, _, rfl, by simp, h1, rfl⟩
        rcases hkey with ⟨s2, ev, hstep, hlen, hopen2, hdb2⟩
        rw [hstep]
        have hrest := ih s2 hopen2 h2'
        rw [hdb2] at hrest
        have hrest2 : (watcherRun s2 acts2).2.length ≤ 0 := hrest
        have hgoal : (ev ++ (watcherRun s2 acts2).2).length ≤ 1 := by
          rw [List.length_append]
          omega
        exact hgoal

/-! ## Invariant preservation by updateHostEntry -/

theorem updateHostEntry_preserves_inv (doc : ParsedHostsFile) (ue : HostEntry)
    (d : ParsedHostsFile)
    (hinv : doc.entries = entriesOf doc.lines)
    (hfirst : ∀ t, jsFind (fun t2 => lineNumberOf t2 == ue.lineNumber) doc.lines =
      some t → isEntryLine t = true)
    (hupd : updateHostEntry doc ue = .wrote d) :
    d.entries = entriesOf d.lines := by
  rw [updateHostEntry] at hupd
  cases hfi : jsFindIndex (fun line => lineNumberOf line == ue.lineNumber)
      doc.lines with
  | none => rw [hfi] at hupd; cases hupd
  | some i =>
    rw [hfi] at hupd
    dsimp only at hupd
    injection hupd with h1
    subst h1
    show (match jsFindIndex (fun entry => entry.lineNumber == ue.lineNumber)
        doc.entries with
      | some entryIndex => doc.entries.set entryIndex ue
      | none => doc.entries) = entriesOf (doc.lines.set i (.entry ue))
    rw [hinv]
    exact (upd_inv_core ue doc.lines hfirst i hfi).symm

/-- Computation of updateHostEntry on a document whose lines and
entries are decomposed around the first element carrying the target
line number. -/
theorem updateHostEntry_eq (doc : ParsedHostsFile) (ue : HostEntry)
    {preL : List HostsFileLine} {tL : HostsFileLine} {postL : List HostsFileLine}
    (hL : doc.lines = preL ++ tL :: postL)
    (hpreL : ∀ a ∈ preL, (lineNumberOf a == ue.lineNumber) = false)
    (htL : (lineNumberOf tL == ue.lineNumber) = true)
    {preE : List HostEntry} {tE : HostEntry} {postE : List HostEntry}
    (hE : doc.entries = preE ++ tE :: postE)
    (hpreE : ∀ a ∈ preE, (a.lineNumber == ue.lineNumber) = false)
    (htE : (tE.lineNumber == ue.lineNumber) = true) :
    updateHostEntry doc ue =
      .wrote { doc with
        lines := preL ++ .entry ue :: postL,
        entries := preE ++ ue :: postE } := by
  rw [updateHostEntry, hL, jsFindIndex_append_cons hpreL htL]
  dsimp only
  rw [hE, jsFindIndex_append_cons hpreE htE]
  dsimp only
  rw [set_append_cons, set_append_cons]

theorem toggle_involution_core (doc : ParsedHostsFile) (n : Nat)
    (hinv : doc.entries = entriesOf doc.lines)
    (huniq : (doc.lines.map lineNumberOf).Nodup)
    (hex : ∃ e ∈ doc.entries, e.lineNumber = n) :
    ∃ d1, toggleHostEntry doc n = .wrote d1 ∧ toggleHostEntry d1 n = .wrote doc := by
  obtain ⟨e0, he0m, he0n⟩ := hex
  obtain ⟨e, hfindE, heM, hpE⟩ :=
    jsFind_of_exists (p := fun e2 => e2.lineNumber == n)
      ⟨e0, he0m, by simp [he0n]⟩
  have hen : e.lineNumber = n := by simpa using hpE
  subst hen
  obtain ⟨_, preE, postE, hEdec, hpreE⟩ := jsFind_eq_some hfindE
  have heL : HostsFileLine.entry e ∈ doc.lines := mem_entriesOf.mp (hinv ▸ heM)
  obtain ⟨t, hfindL, htM, hqT⟩ :=
    jsFind_of_exists (p := fun t2 => lineNumberOf t2 == e.lineNumber)
      ⟨.entry e, heL, by simp [lineNumberOf]⟩
  have htE : t = .entry e := by
    have h2 : lineNumberOf t = e.lineNumber := by simpa using hqT
    exact nodup_ln_inj huniq htM heL (by simpa [lineNumberOf] using h2)
  subst htE
  obtain ⟨_, preL, postL, hLdec, hpreL⟩ := jsFind_eq_some hfindL
  obtain ⟨f, hfdef⟩ : ∃ f, ({ e with enabled := !e.enabled } : HostEntry) = f :=
    ⟨_, rfl⟩
  have hfln : f.lineNumber = e.lineNumber := by rw [← hfdef]
  have hfflip : ({ f with enabled := !f.enabled } : HostEntry) = e := by
    rw [← hfdef]
    cases e
    simp
  have hupd1 : updateHostEntry doc f =
      .wrote { doc with
        lines := preL ++ .entry f :: postL,
        entries := preE ++ f :: postE } := by
    refine updateHostEntry_eq doc f hLdec ?_ ?_ hEdec ?_ ?_
    · intro a ha
      rw [hfln]
      exact hpreL a ha
    · rw [hfln]
      simp [lineNumberOf]
    · intro a ha
      rw [hfln]
      exact hpreE a ha
    · rw [hfln]
      simp
  have htog1 : toggleHostEntry doc e.lineNumber =
      .wrote { doc with
        lines := preL ++ .entry f :: postL,
        entries := preE ++ f :: postE } := by
    rw [toggleHostEntry, hfindE]
    dsimp only
    rw [hfdef]
    exact hupd1
  refine ⟨_, htog1, ?_⟩
  have hd1E : ({ doc with
      lines := preL ++ .entry f :: postL,
      entries := preE ++ f :: postE } : ParsedHostsFile).entries =
      preE ++ f :: postE := rfl
  have hfind2 : jsFind (fun entry => entry.lineNumber == e.lineNumber)
      (preE ++ f :: postE) = some f := by
    refine jsFind_append_cons hpreE ?_ postE
    rw [hfln]
    simp
  have hupd2 : updateHostEntry
      { doc with
        lines := preL ++ .entry f :: postL,
        entries := preE ++ f :: postE } e = .wrote doc := by
    have h1 := @updateHostEntry_eq
      { doc with
        lines := preL ++ .entry f :: postL,
        entries := preE ++ f :: postE } e
      preL (.entry f) postL rfl
      hpreL (by rw [lineNumberOf, hfln]; simp)
      preE f postE rfl
      hpreE (by rw [hfln]; simp)
    rw [h1]
    show MutationOutcome.wrote { doc with
      lines := preL ++ .entry e :: postL,
      entries := preE ++ e :: postE } = .wrote doc
    rw [← hLdec, ← hEdec]
  rw [toggleHostEntry, hd1E, hfind2]
  dsimp only
  rw [hfflip]
  exact hupd2

/-! ## The claims -/

/-- C1 counterexample: the parser accepts the text built of the bytes
a CR CR LF b, but re-parsing the serialization of its parse changes the
semantic multiset of lines.  Splitting on the regex for CR-optional
newlines leaves the first piece ending in a bare CR; the serializer
copies it back verbatim and joins with LF, so the rewritten text
re-splits at the now-formed CRLF into different pieces. -/
theorem c1_counterexample :
    semMultiset (parseHostsFileContent
        (convertToString (parseHostsFileContent "a\r\r\nb".data [] 0)) [] 0) ≠
      semMultiset (parseHostsFileContent "a\r\r\nb".data [] 0) := by
  decide

/-- C1 (corrected): for every input text none of whose split lines ends
in a bare carriage return, re-parsing the serialization of the parsed
document yields the same multiset of semantic (lineNumber, variant,
fields) views as the original parse. -/
theorem c1_round_trip_amended (content path1 path2 : Str) (m1 m2 : Nat)
    (hcr : ∀ piece ∈ splitLines content, piece.getLast? ≠ some '\r') :
    semMultiset (parseHostsFileContent
        (convertToString (parseHostsFileContent content path1 m1)) path2 m2) =
      semMultiset (parseHostsFileContent content path1 m1) :=
  congrArg Multiset.ofList (roundtrip_lines content path1 path2 m1 m2 hcr)

/-- C1 witness: the amended round trip evaluated on a concrete two-line
hosts file. -/
theorem c1_round_trip_amended_witness :
    semMultiset (parseHostsFileContent (convertToString demoDoc)
        "/etc/hosts".data 1) = semMultiset demoDoc :=
  c1_round_trip_amended "127.0.0.1\tlocalhost home # dev\n# note".data
    "/etc/hosts".data "/etc/hosts".data 0 1 (by decide)

/-- C2 counterexample: on the non-elevated path the write trace is the
optional backup copy followed by a single plain writeFile of the target
path itself; no temporary file is written and no rename ever occurs, so
the file replacement is an in-place truncating write. -/
theorem c2_counterexample :
    (writeHostsFileActions
        { lines := [], entries := [], filePath := "/etc/hosts".data,
          lastModified := 0 }
        { createBackup := true, useElevatedPermissions := false }
        false "/tmp".data 0 =
      [FsAction.copyFile "/etc/hosts".data (backupPath "/etc/hosts".data 0),
       FsAction.writeFile "/etc/hosts".data []]) ∧
    (∀ a ∈ writeHostsFileActions
        { lines := [], entries := [], filePath := "/etc/hosts".data,
          lastModified := 0 }
        { createBackup := true, useElevatedPermissions := false }
        false "/tmp".data 0, a.isRename = false) := by
  decide

/-- C2 (corrected): whenever elevated permissions are not requested,
writeHostsFile performs the optional backup copy and then one direct
fs.writeFile of the serialized content to the target path; it does not
write a temporary file and rename it over the target. -/
theorem c2_write_actions_amended (doc : ParsedHostsFile) (opts : WriteOptions)
    (win : Bool) (tmpDir : Str) (now : Nat)
    (hne : opts.useElevatedPermissions = false) :
    writeHostsFileActions doc opts win tmpDir now =
      (if opts.createBackup then
        [FsAction.copyFile doc.filePath (backupPath doc.filePath now)]
       else []) ++
      [FsAction.writeFile doc.filePath (convertToString doc)] := by
  rw [writeHostsFileActions, hne]
  rfl

/-- C2 witness: the amended write trace evaluated on a concrete empty
document without backup. -/
theorem c2_write_actions_amended_witness :
    writeHostsFileActions
      { lines := [], entries := [], filePath := "/etc/hosts".data,
        lastModified := 0 }
      { createBackup := false, useElevatedPermissions := false }
      false "/tmp".data 5 =
      [FsAction.writeFile "/etc/hosts".data []] :=
  c2_write_actions_amended _ _ false "/tmp".data 5 rfl

/-- C3 counterexample: a debounce timer armed before stopWatching is not
cancelled by it, and when the pending callback later fires it still
emits a Changed event, after stopWatching returned. -/
theorem c3_counterexample :
    (watcherRun initialWatcherState
        [.startWatching (some 0), .rawChange, .stopWatching,
         .timerFire (some 1)]).2 = [WatcherEvent.changed] ∧
    (watcherRun initialWatcherState
        [.startWatching (some 0), .rawChange, .stopWatching]).1.debounceTimer =
      true := by
  decide

/-- C3 (corrected): for a well-formed state (isWatching agrees with the
subscription being open), stopWatching is a no-op when idle, and after
it returns the watcher is not watching, the subscription is closed and
no event was emitted by the call; however the debounce timer is left
exactly as it was, and any following action sequence without a new
startWatching can still emit up to one further event, namely the
pending debounce callback. -/
theorem c3_stop_watching_amended (s : WatcherState) (acts : List WatcherAction)
    (hwf : s.isWatching = s.watcherOpen)
    (hstart : ∀ a ∈ acts, a.isStart = false) :
    (s.isWatching = false → watcherStep s .stopWatching = (s, [])) ∧
    ((watcherStep s .stopWatching).1.isWatching = false ∧
     (watcherStep s .stopWatching).1.watcherOpen = false ∧
     (watcherStep s .stopWatching).1.debounceTimer = s.debounceTimer ∧
     (watcherStep s .stopWatching).2 = []) ∧
    (watcherRun (watcherStep s .stopWatching).1 acts).2.length ≤
      (if s.debounceTimer then 1 else 0) := by
  cases hw : s.isWatching with
  | false =>
    have hwo : s.watcherOpen = false := by rw [← hwf, hw]
    have hstep : watcherStep s .stopWatching = (s, []) := by
      simp only [watcherStep]
      rw [if_pos (by simp [hw])]
    refine ⟨fun _ => hstep, ?_, ?_⟩
    · rw [hstep]
      exact ⟨hw, hwo, rfl, rfl⟩
    · rw [hstep]
      exact watcherRun_bound acts s hwo hstart
  | true =>
    have hwo : s.watcherOpen = true := by rw [← hwf, hw]
    have hstep : watcherStep s .stopWatching =
        ({ s with isWatching := false, watcherOpen := false }, []) := by
      simp only [watcherStep]
      rw [if_neg (by simp [hw, hwo])]
    refine ⟨fun hc => ?_, ?_, ?_⟩
    · exact absurd hc (by decide)
    · rw [hstep]
      exact ⟨rfl, rfl, rfl, rfl⟩
    · rw [hstep]
      exact watcherRun_bound acts _ rfl hstart

/-- C3 witness: the amended stopWatching behaviour evaluated on a
watching state with a pending timer, followed by a timer fire and a
stray error callback. -/
theorem c3_stop_watching_amended_witness :
    (watcherStep watcherStateDemo .stopWatching).1.isWatching = false ∧
    (watcherRun (watcherStep watcherStateDemo .stopWatching).1
        [WatcherAction.timerFire (some 1), WatcherAction.watchError]).2.length ≤
      (if watcherStateDemo.debounceTimer then 1 else 0) :=
  ⟨(c3_stop_watching_amended watcherStateDemo
      [WatcherAction.timerFire (some 1), WatcherAction.watchError]
      rfl (by decide)).2.1.1,
   (c3_stop_watching_amended watcherStateDemo
      [WatcherAction.timerFire (some 1), WatcherAction.watchError]
      rfl (by decide)).2.2⟩

/-- C4 counterexample: the line with tokens localhost and foo satisfies
the claimed Entry condition (the literal localhost address with a name
token present) but the parser classifies it as a Comment, because
neither the IPv4 nor the IPv6 regex matches a first token without
digits-and-dots or hex-and-colon characters. -/
theorem c4_counterexample :
    claimedEntryCond "localhost foo".data = true ∧
    isEntryLine (parseLine "localhost foo".data 0) = false := by
  decide

/-- C4 (corrected): a line is classified as an Entry exactly when its
trimmed text matches ipv4Regex or ipv6Regex, that is, after an optional
leading hash marker, a digits-and-dots dotted-quad shape or a
hex-and-colon run followed by whitespace and a name character; the
literal localhost is not accepted as an address, and no dotted-quad
range check or second-token content beyond the regex is applied. -/
theorem c4_entry_classification_amended (l : Str) (i : Nat) :
    isEntryLine (parseLine l i) = (matchIPv4 (trim l) || matchIPv6 (trim l)) :=
  isEntry_parseLine_eq l i

/-- C5 counterexample: updateHostEntry aimed at the line number of a
Comment line overwrites that line with an Entry while leaving the
derived entries array untouched, breaking the invariant that entries is
exactly the Entry-tagged subset of lines. -/
theorem c5_counterexample :
    commentOnlyDoc.entries = entriesOf commentOnlyDoc.lines ∧
    (∃ d ∈ mutationWrites (updateHostEntry commentOnlyDoc overwriteEntry),
      d.entries ≠ entriesOf d.lines) := by
  decide

/-- C5 (corrected): the parser always establishes the invariant that
entries is the Entry-tagged subset of lines in order, and addHostEntry
and removeHostEntry preserve it; updateHostEntry (and hence
toggleHostEntry) preserves it provided the first line carrying the
target line number is an Entry line, a side condition the
counterexample shows to be necessary. -/
theorem c5_entries_invariant_amended (content path : Str) (m : Nat)
    (doc : ParsedHostsFile) (ne2 : NewHostEntry) (n : Nat) (ue : HostEntry)
    (hinv : doc.entries = entriesOf doc.lines) :
    (parseHostsFileContent content path m).entries =
      entriesOf (parseHostsFileContent content path m).lines ∧
    (∀ d ∈ mutationWrites (addHostEntry doc ne2),
      d.entries = entriesOf d.lines) ∧
    (∀ d ∈ mutationWrites (removeHostEntry doc n),
      d.entries = entriesOf d.lines) ∧
    ((∀ t, jsFind (fun t2 => lineNumberOf t2 == ue.lineNumber) doc.lines =
        some t → isEntryLine t = true) →
      ∀ d ∈ mutationWrites (updateHostEntry doc ue),
        d.entries = entriesOf d.lines) ∧
    ((∀ t, jsFind (fun t2 => lineNumberOf t2 == n) doc.lines = some t →
        isEntryLine t = true) →
      ∀ d ∈ mutationWrites (toggleHostEntry doc n),
        d.entries = entriesOf d.lines) := by
  refine ⟨rfl, ?_, ?_, ?_, ?_⟩
  · intro d hd
    by_cases hv : (validateHostEntry ne2).valid = true
    · have hout : addHostEntry doc ne2 = .wrote { doc with
          lines := doc.lines ++ [.entry (completeEntry doc ne2)],
          entries := doc.entries ++ [completeEntry doc ne2] } := by
        simp only [addHostEntry]
        rw [if_neg (by simp [hv])]
      rw [hout] at hd
      have hd0 : d = { doc with
          lines := doc.lines ++ [.entry (completeEntry doc ne2)],
          entries := doc.entries ++ [completeEntry doc ne2] } := by
        simpa [mutationWrites] using hd
      subst hd0
      show doc.entries ++ [completeEntry doc ne2] =
        entriesOf (doc.lines ++ [.entry (completeEntry doc ne2)])
      rw [entriesOf_append, hinv]
      rfl
    · have hv2 : (validateHostEntry ne2).valid = false :=
        Bool.eq_false_iff.mpr hv
      have hout : addHostEntry doc ne2 = .failed ("Validation failed: ".data ++
          joinSep ' ' (validateHostEntry ne2).errors) := by
        simp only [addHostEntry]
        rw [if_pos (by simp [hv2])]
      rw [hout] at hd
      simp [mutationWrites] at hd
  · intro d hd
    have hd0 : d = { doc with
        lines := doc.lines.filter (fun line => !(lineNumberOf line == n)),
        entries := doc.entries.filter (fun entry => !(entry.lineNumber == n)) } := by
      simpa [removeHostEntry, mutationWrites] using hd
    subst hd0
    show doc.entries.filter (fun entry => !(entry.lineNumber == n)) =
      entriesOf (doc.lines.filter (fun line => !(lineNumberOf line == n)))
    rw [hinv]
    exact (entriesOf_filter_ln n doc.lines).symm
  · intro hfirst d hd
    cases hout : updateHostEntry doc ue with
    | failed msg =>
      rw [hout] at hd
      simp [mutationWrites] at hd
    | wrote d0 =>
      rw [hout] at hd
      have hd0 : d = d0 := by simpa [mutationWrites] using hd
      subst hd0
      exact updateHostEntry_preserves_inv doc ue _ hinv hfirst hout
  · intro hfirst d hd
    cases hf : jsFind (fun entry => entry.lineNumber == n) doc.entries with
    | none =>
      have htog : toggleHostEntry doc n = .failed (notFoundMsg n) := by
        rw [toggleHostEntry, hf]
      rw [htog] at hd
      simp [mutationWrites] at hd
    | some entry =>
      have htog : toggleHostEntry doc n =
          updateHostEntry doc { entry with enabled := !entry.enabled } := by
        rw [toggleHostEntry, hf]
      rw [htog] at hd
      have hln : ({ entry with enabled := !entry.enabled } : HostEntry).lineNumber
          = n := by
        have h1 := (jsFind_eq_some hf).1
        simpa using h1
      have hfirst2 : ∀ t, jsFind (fun t2 => lineNumberOf t2 ==
          ({ entry with enabled := !entry.enabled } : HostEntry).lineNumber)
          doc.lines = some t → isEntryLine t = true := by
        rw [hln]
        exact hfirst
      cases hout : updateHostEntry doc { entry with enabled := !entry.enabled } with
      | failed msg =>
        rw [hout] at hd
        simp [mutationWrites] at hd
      | wrote d0 =>
        rw [hout] at hd
        have hd0 : d = d0 := by simpa [mutationWrites] using hd
        subst hd0
        exact updateHostEntry_preserves_inv doc _ _ hinv hfirst2 hout

/-- C5 witness: the parser part of the amended invariant evaluated on a
concrete one-entry file. -/
theorem c5_entries_invariant_amended_witness :
    (parseHostsFileContent "127.0.0.1 localhost".data "/etc/hosts".data 0).entries =
      entriesOf (parseHostsFileContent "127.0.0.1 localhost".data
        "/etc/hosts".data 0).lines :=
  (c5_entries_invariant_amended "127.0.0.1 localhost".data "/etc/hosts".data 0
    demoDoc demoNewEntry 3 overwriteEntry rfl).1

/-- C6 (confirmed): updateHostEntry and toggleHostEntry on a line number
absent from the document return the not-found error carrying that line
number, and the mock write surface observes zero writeHostsFile calls. -/
theorem c6_not_found_no_write (doc : ParsedHostsFile) (ue : HostEntry) (n : Nat)
    (hinv : doc.entries = entriesOf doc.lines)
    (habs : ∀ t ∈ doc.lines, lineNumberOf t ≠ ue.lineNumber)
    (habs2 : ∀ t ∈ doc.lines, lineNumberOf t ≠ n) :
    updateHostEntry doc ue = .failed (notFoundMsg ue.lineNumber) ∧
    mutationWrites (updateHostEntry doc ue) = [] ∧
    toggleHostEntry doc n = .failed (notFoundMsg n) ∧
    mutationWrites (toggleHostEntry doc n) = [] := by
  have h1 : jsFindIndex (fun line => lineNumberOf line == ue.lineNumber)
      doc.lines = none :=
    jsFindIndex_none_of_all (fun t ht =>
      Bool.eq_false_iff.mpr (fun hx => habs t ht (eq_of_beq hx)))
  have hupd : updateHostEntry doc ue = .failed (notFoundMsg ue.lineNumber) := by
    rw [updateHostEntry, h1]
  have h2 : jsFind (fun entry => entry.lineNumber == n) doc.entries = none :=
    jsFind_none_of_all (fun e he =>
      Bool.eq_false_iff.mpr (fun hx =>
        habs2 _ (mem_entriesOf.mp (hinv ▸ he)) (eq_of_beq hx)))
  have htog : toggleHostEntry doc n = .failed (notFoundMsg n) := by
    rw [toggleHostEntry, h2]
  exact ⟨hupd, by rw [hupd]; rfl, htog, by rw [htog]; rfl⟩

/-- C6 witness: the not-found behaviour evaluated on the sample document
with the absent line numbers 7 and 9. -/
theorem c6_not_found_no_write_witness :
    updateHostEntry demoDoc absentEntry = .failed (notFoundMsg 7) ∧
    toggleHostEntry demoDoc 9 = .failed (notFoundMsg 9) :=
  ⟨(c6_not_found_no_write demoDoc absentEntry 9 rfl (by decide) (by decide)).1,
   (c6_not_found_no_write demoDoc absentEntry 9 rfl (by decide)
      (by decide)).2.2.1⟩

/-- C7 (confirmed): removeHostEntry on a line number absent from the
document succeeds, writing the document itself unchanged, so every
written document serializes to the original serialized form. -/
theorem c7_remove_absent_noop (doc : ParsedHostsFile) (n : Nat)
    (habs : ∀ t ∈ doc.lines, lineNumberOf t ≠ n)
    (hinv : doc.entries = entriesOf doc.lines) :
    removeHostEntry doc n = .wrote doc ∧
    ∀ d ∈ mutationWrites (removeHostEntry doc n),
      convertToString d = convertToString doc := by
  have h1 : doc.lines.filter (fun line => !(lineNumberOf line == n)) =
      doc.lines :=
    filter_all_eq_self (fun t ht => by
      have hb : (lineNumberOf t == n) = false :=
        Bool.eq_false_iff.mpr (fun hx => habs t ht (eq_of_beq hx))
      rw [hb]
      rfl)
  have h2 : doc.entries.filter (fun entry => !(entry.lineNumber == n)) =
      doc.entries :=
    filter_all_eq_self (fun e he => by
      have hb : (e.lineNumber == n) = false :=
        Bool.eq_false_iff.mpr (fun hx =>
          habs _ (mem_entriesOf.mp (hinv ▸ he)) (eq_of_beq hx))
      rw [hb]
      rfl)
  have hrm : removeHostEntry doc n = .wrote doc := by
    rw [removeHostEntry, h1, h2]
  refine ⟨hrm, ?_⟩
  intro d hd
  rw [hrm] at hd
  have hd0 : d = doc := by simpa [mutationWrites] using hd
  rw [hd0]

/-- C7 witness: removing the absent line number 5 from the sample
document is a successful no-op. -/
theorem c7_remove_absent_noop_witness :
    removeHostEntry demoDoc 5 = .wrote demoDoc :=
  (c7_remove_absent_noop demoDoc 5 (by decide) rfl).1

/-- C8 (confirmed): addHostEntry on validated fields appends the
completed entry to both lines and entries, assigns it line number
max of existing line numbers plus one (0 for a document without lines),
and on a nonempty document the serializer places the new entry last. -/
theorem c8_add_entry_line_number (doc : ParsedHostsFile) (ne2 : NewHostEntry)
    (hv : (validateHostEntry ne2).valid = true) :
    addHostEntry doc ne2 = .wrote { doc with
      lines := doc.lines ++ [.entry (completeEntry doc ne2)],
      entries := doc.entries ++ [completeEntry doc ne2] } ∧
    (completeEntry doc ne2).lineNumber =
      (if doc.lines.length = 0 then 0
       else (doc.lines.map lineNumberOf).foldr max 0 + 1) ∧
    (doc.lines ≠ [] →
      convertToString { doc with
        lines := doc.lines ++ [.entry (completeEntry doc ne2)],
        entries := doc.entries ++ [completeEntry doc ne2] } =
      convertToString doc ++ '\n' ::
        lineToString (.entry (completeEntry doc ne2))) := by
  refine ⟨?_, rfl, ?_⟩
  · simp only [addHostEntry]
    rw [if_neg (by simp [hv])]
  · intro hne
    have hmax : ∀ y ∈ doc.lines, lineNumberOf y <
        lineNumberOf (.entry (completeEntry doc ne2)) := by
      intro y hy
      have hL : lineNumberOf (HostsFileLine.entry (completeEntry doc ne2)) =
          (doc.lines.map lineNumberOf).foldr max 0 + 1 := by
        show getNextLineNumber doc = _
        rw [getNextLineNumber,
          if_neg (fun h => hne (List.length_eq_zero.mp h))]
      have hy2 := mem_le_foldr_max _ _ (List.mem_map_of_mem lineNumberOf hy)
      omega
    have hA : (sortByLN doc.lines).map lineToString ≠ [] := by
      intro hx
      exact sortByLN_ne_nil hne (List.map_eq_nil_iff.mp hx)
    have hB : [lineToString (.entry (completeEntry doc ne2))] ≠ [] := by simp
    show joinSep '\n'
        ((sortByLN (doc.lines ++ [.entry (completeEntry doc ne2)])).map
          lineToString) = _
    rw [sortByLN_append_big hmax, List.map_append]
    simp only [List.map_cons, List.map_nil]
    rw [joinSep_append '\n' hA hB]
    rfl

/-- C8 witness: Scenario B evaluated concretely, a document whose
largest line number is 5 assigns line number 6 to a freshly validated
entry. -/
theorem c8_add_entry_line_number_witness :
    (validateHostEntry demoNewEntry).valid = true ∧
    (completeEntry demoDoc6 demoNewEntry).lineNumber =
      (if demoDoc6.lines.length = 0 then 0
       else (demoDoc6.lines.map lineNumberOf).foldr max 0 + 1) ∧
    (completeEntry demoDoc6 demoNewEntry).lineNumber = 6 :=
  ⟨by decide,
   (c8_add_entry_line_number demoDoc6 demoNewEntry (by decide)).2.1,
   by decide⟩

/-- C9 (confirmed): on a document satisfying the entries invariant and
with pairwise distinct line numbers, toggling an existing entry twice
returns to the original document: the first toggle writes some document
d1 and toggling d1 at the same line number writes the original
document. -/
theorem c9_toggle_involution (doc : ParsedHostsFile) (n : Nat)
    (hinv : doc.entries = entriesOf doc.lines)
    (huniq : (doc.lines.map lineNumberOf).Nodup)
    (hex : ∃ e ∈ doc.entries, e.lineNumber = n) :
    ∃ d1, toggleHostEntry doc n = .wrote d1 ∧
      toggleHostEntry d1 n = .wrote doc :=
  toggle_involution_core doc n hinv huniq hex

/-- C9 witness: toggling the sample document twice at line number 0
returns it unchanged; the intermediate document is the sample with the
enabled flag flipped. -/
theorem c9_toggle_involution_witness :
    toggleHostEntry toggledDemoDoc 0 = .wrote demoDoc := by
  obtain ⟨d1, h1, h2⟩ := c9_toggle_involution demoDoc 0 rfl (by decide)
    (by decide)
  have hc : toggleHostEntry demoDoc 0 = .wrote toggledDemoDoc := by decide
  rw [hc] at h1
  injection h1 with h3
  rw [← h3] at h2
  exact h2

/-- C10 (confirmed): the serialized text of an Entry line depends only
on its ip, hostname, enabled, aliases and comment fields; two entries
agreeing on those five fields produce identical text whatever their raw
fields (and line numbers) hold. -/
theorem c10_serializer_ignores_raw (e1 e2 : HostEntry)
    (hip : e1.ip = e2.ip) (hhn : e1.hostname = e2.hostname)
    (hen : e1.enabled = e2.enabled) (hal : e1.aliases = e2.aliases)
    (hcm : e1.comment = e2.comment) :
    lineToString (.entry e1) = lineToString (.entry e2) := by
  simp only [lineToString, hip, hhn, hen, hal, hcm]

/-- C10 witness: two concrete entries differing only in their raw text
and line number serialize identically. -/
theorem c10_serializer_ignores_raw_witness :
    lineToString (.entry
      { ip := "127.0.0.1".data,
        hostname := "localhost".data,
        enabled := true,
        aliases := [],
        comment := none,
        lineNumber := 3,
        raw := "stale raw text".data }) =
    lineToString (.entry
      { ip := "127.0.0.1".data,
        hostname := "localhost".data,
        enabled := true,
        aliases := [],
        comment := none,
        lineNumber := 9,
        raw := [] }) :=
  c10_serializer_ignores_raw _ _ rfl rfl rfl rfl rfl

end Hoast
